import Mathlib

/-!
# Range trackers of Jackalope (`rangetracker.cpp`)

A shallow embedding of the three range trackers of `rangetracker.cpp`,
`ConstantRangeTracker`, `SHMRangeTracker` (with `ConsolidateRanges`) and
`ZIPRangeTracker` (with `IsZIPFile`), and the properties of them that the
specification states.

Conventions of the embedding:

* `size_t` offsets are natural numbers. The scan loop checks its bound
  `sample_size - 4` against wrap-around; `i++` and `i + 46` with
  `i <= sample_size - 4` cannot wrap for a buffer that exists in memory.
* The expression for `range_end` is evaluated by C in `unsigned int`; it is embedded
  modulo `2 ^ 32`.
* A `std::vector<Range>` is a `List Range`; `push_back` appends at the end.
* `std::sort` is a parameter of `ConsolidateRanges`: the C++ standard fixes only that
  its result is a permutation of the input in which no element is less than an earlier
  one, and leaves the order of elements with equal `from` open.
* A sample or a shared-memory region is the function from byte offsets to bytes together
  with its size; multi-byte values are little-endian. Reads are bounds checked: a read
  outside `[0, size)` makes the embedded function return `none`.
* `WARN` calls are collected in a list of messages returned with the result.
-/

namespace Jackalope

/-! ## Data model -/

/-- A closed interval of byte offsets, `class Range` of `range.h`. -/
structure Range where
  «from» : Nat
  «to» : Nat
deriving DecidableEq, Repr

/-- The comparison `Range::operator<`: only `from` is compared. -/
def Range.lt (a b : Range) : Prop := a.from < b.from

instance (a b : Range) : Decidable (Range.lt a b) := by
  unfold Range.lt; infer_instance

/-- The order `std::sort` establishes: `b` is not less than `a`. -/
def Range.notAfter (a b : Range) : Prop := ¬ Range.lt b a

instance (a b : Range) : Decidable (Range.notAfter a b) := by
  unfold Range.notAfter; infer_instance

/-! ## ConsolidateRanges -/

/-- The contract of `std::sort(inranges.begin(), inranges.end())`: the result is a
permutation of the input, and no element is less (by `operator<`) than an earlier one. -/
def IsStdSort (sort : List Range → List Range) : Prop :=
  ∀ l, (sort l).Perm l ∧ (sort l).Pairwise Range.notAfter

/-- The loop of `ConsolidateRanges` over `inranges[1..]`: `lastrange` is the last
element of `outranges`; the current range either extends it or is appended. -/
def consolidateLoop : List Range → List Range → List Range
  | [], outranges => outranges
  | currange :: rest, outranges =>
    match outranges.getLast? with
    | none => outranges
    | some lastrange =>
      if currange.from ≤ lastrange.to then
        if currange.to > lastrange.to then
          consolidateLoop rest (outranges.dropLast ++ [⟨lastrange.from, currange.to⟩])
        else
          consolidateLoop rest outranges
      else
        consolidateLoop rest (outranges ++ [currange])

/-- `SHMRangeTracker::ConsolidateRanges(inranges, outranges)`; the result is the
final content of `outranges`. -/
def ConsolidateRanges (sort : List Range → List Range) (inranges outranges : List Range) :
    List Range :=
  if inranges.isEmpty then outranges
  else
    match sort inranges with
    | [] => outranges
    | first :: rest => consolidateLoop rest (outranges ++ [first])

/-- A stable sort by `from`, one admissible behaviour of `std::sort`. -/
def stableSort (l : List Range) : List Range :=
  List.insertionSort (fun a b => a.from ≤ b.from) l

/-- A sort by `from` that reverses the order of equal elements, another admissible
behaviour of `std::sort`. -/
def reversingSort (l : List Range) : List Range :=
  List.insertionSort (fun a b => a.from ≤ b.from) l.reverse

/-- The set of offsets covered by a list of ranges, as a decidable predicate. -/
def covers (l : List Range) (x : Nat) : Bool :=
  l.any (fun r => decide (r.from ≤ x) && decide (x ≤ r.to))

/-! ## ZIPRangeTracker -/

/-- Signature of a central-directory record, `SIG_PK_CENTRAL`. -/
def SIG_PK_CENTRAL : Nat := 0x02014B50

/-- Signature of a local file header, `SIG_PK_LOCAL`. -/
def SIG_PK_LOCAL : Nat := 0x04034B50

/-- Size of the scanned tail of the sample, `READ_SIZE`. -/
def READ_SIZE : Nat := 0x60

/-- Fixed offset of the embedded payload, `TARGET_FILE_START`. -/
def TARGET_FILE_START : Nat := 0x1FEC

/-- The packed size of `zip_central_dir_header`: 4 + 6 * 2 + 3 * 4 + 5 * 2 + 2 * 4. -/
def HEADER_SIZE : Nat := 46

/-- Offset of the field `uncompressed_size` in the packed header. -/
def OFF_UNCOMPRESSED_SIZE : Nat := 24

/-- Offset of the field `filename_len` in the packed header. -/
def OFF_FILENAME_LEN : Nat := 28

/-- The modulus of `unsigned int` arithmetic. -/
def UINT_MOD : Nat := 4294967296

/-- The byte of the sample at offset `i`, as an unsigned value. A sample is the function
from offsets to bytes that the pointer `sample_data` stands for. -/
def byteAt (sample_data : Nat → Nat) (i : Nat) : Nat := sample_data i % 256

/-- The little-endian 16-bit value stored at offset `i`. -/
def le16 (sample_data : Nat → Nat) (i : Nat) : Nat :=
  byteAt sample_data i + 256 * byteAt sample_data (i + 1)

/-- The little-endian 32-bit value stored at offset `i`. -/
def le32 (sample_data : Nat → Nat) (i : Nat) : Nat :=
  byteAt sample_data i + 256 * byteAt sample_data (i + 1)
    + 65536 * byteAt sample_data (i + 2) + 16777216 * byteAt sample_data (i + 3)

/-- A bounds-checked read of a `uint16_t` at offset `i` of a sample of `size` bytes. -/
def read16 (sample_data : Nat → Nat) (size i : Nat) : Option Nat :=
  if i + 2 ≤ size then some (le16 sample_data i) else none

/-- A bounds-checked read of a `uint32_t` at offset `i` of a sample of `size` bytes. -/
def read32 (sample_data : Nat → Nat) (size i : Nat) : Option Nat :=
  if i + 4 ≤ size then some (le32 sample_data i) else none

/-- The helper `IsZIPFile(data, size)`; `none` is an out-of-bounds read. -/
def IsZIPFile (data : Nat → Nat) (size : Nat) : Option Bool :=
  if size < 4 then some false
  else
    match read32 data size 0 with
    | none => none
    | some sig => some (decide (sig = SIG_PK_LOCAL))

/-- The value of `range_end`: `TARGET_FILE_START + filename_len + uncompressed_size - 1`
evaluated in `unsigned int`, then widened to `size_t`. -/
def rangeEnd (filename_len uncompressed_size : Nat) : Nat :=
  ((TARGET_FILE_START + filename_len + uncompressed_size) % UINT_MOD + (UINT_MOD - 1)) % UINT_MOD

/-- The scan loop `for (i = search_start; i <= sample_size - 4; i++)` of
`ZIPRangeTracker::ExtractRanges`, started at `i` with the current content of `ranges`.
The first argument bounds the number of iterations; `none` is an out-of-bounds read, a
loop bound `sample_size - 4` that wraps around, or an exhausted bound. -/
def scanLoop (sample_data : Nat → Nat) (sample_size : Nat) :
    Nat → Nat → List Range → Option (List Range)
  | 0, _, _ => none
  | fuel + 1, i, ranges =>
    if sample_size < 4 then none
    else if i ≤ sample_size - 4 then
      match read32 sample_data sample_size i with
      | none => none
      | some sig =>
        if sig = SIG_PK_CENTRAL then
          if i + HEADER_SIZE ≤ sample_size then
            match read16 sample_data sample_size (i + OFF_FILENAME_LEN),
                read32 sample_data sample_size (i + OFF_UNCOMPRESSED_SIZE) with
            | some filename_len, some uncompressed_size =>
              let range_start := TARGET_FILE_START + filename_len
              let range_end := rangeEnd filename_len uncompressed_size
              if range_start < sample_size ∧ range_end < sample_size
                  ∧ range_start ≤ range_end then
                some (ranges ++ [⟨range_start, range_end⟩])
              else
                scanLoop sample_data sample_size fuel (i + 1) ranges
            | _, _ => none
          else
            scanLoop sample_data sample_size fuel (i + 1) ranges
        else
          scanLoop sample_data sample_size fuel (i + 1) ranges
    else
      some ranges

/-- `ZIPRangeTracker::ExtractRanges(ranges, sample_data, sample_size, validate_zip)`;
the result is the final content of `ranges`, `none` an out-of-bounds read. The loop
visits at most `READ_SIZE - 3` offsets, so `READ_SIZE` bounds its iterations. -/
def ExtractRanges (ranges : List Range) (sample_data : Nat → Nat) (sample_size : Nat)
    (validate_zip : Bool) : Option (List Range) :=
  let cleared : List Range := ranges.drop ranges.length
  if sample_size < READ_SIZE then some cleared
  else
    match (if validate_zip then IsZIPFile sample_data sample_size else some true) with
    | none => none
    | some false => some cleared
    | some true =>
      let search_start := if sample_size ≥ READ_SIZE then sample_size - READ_SIZE else 0
      scanLoop sample_data sample_size READ_SIZE search_start cleared

/-- The range the loop computes from the header at offset `i`. -/
def candidate (sample_data : Nat → Nat) (i : Nat) : Range :=
  ⟨TARGET_FILE_START + le16 sample_data (i + OFF_FILENAME_LEN),
    rangeEnd (le16 sample_data (i + OFF_FILENAME_LEN))
      (le32 sample_data (i + OFF_UNCOMPRESSED_SIZE))⟩

/-- The bounds check of the loop on a computed range. -/
def inBounds (sample_size : Nat) (r : Range) : Prop :=
  r.from < sample_size ∧ r.to < sample_size ∧ r.from ≤ r.to

instance (sample_size : Nat) (r : Range) : Decidable (inBounds sample_size r) := by
  unfold inBounds; infer_instance

/-- Offset `i` makes the loop push a range: the signature is there, the header fits and
the computed range passes the bounds check. -/
def emitsAt (sample_data : Nat → Nat) (sample_size i : Nat) : Prop :=
  le32 sample_data i = SIG_PK_CENTRAL ∧ i + HEADER_SIZE ≤ sample_size
    ∧ inBounds sample_size (candidate sample_data i)

instance (sample_data : Nat → Nat) (sample_size i : Nat) :
    Decidable (emitsAt sample_data sample_size i) := by
  unfold emitsAt; infer_instance

/-- A sample given by the bytes stored at listed offsets, zero elsewhere. -/
def bytesAt (l : List (Nat × Nat)) (i : Nat) : Nat :=
  match l.find? (fun p => p.1 == i) with
  | some p => p.2
  | none => 0

/-- The central-directory signature stored at offset `i`, little-endian. -/
def centralSigAt (i : Nat) : List (Nat × Nat) :=
  [(i, 0x50), (i + 1, 0x4B), (i + 2, 0x01), (i + 3, 0x02)]

/-- The 500-byte buffer built by `main` of `test_ziprangetracker.cpp`: zero filled, a
central-directory header at offset 450 with `filename_len = 10`,
`uncompressed_size = 100`, `compressed_size = 100`, both versions 20, and the local
file header signature at offset 0. -/
def testBuffer : Nat → Nat :=
  bytesAt ([(0, 0x50), (1, 0x4B), (2, 0x03), (3, 0x04)] ++ centralSigAt 450 ++
    [(454, 20), (456, 20), (470, 100), (474, 100), (478, 10)])

/-- A sample of 8300 bytes with two central-directory signatures in the scan window:
at 8204 a header with `uncompressed_size = 0`, at 8250 a header with
`filename_len = 0` and `uncompressed_size = 1`. -/
def twoMatchSample : Nat → Nat :=
  bytesAt ([(0, 0x50), (1, 0x4B), (2, 0x03), (3, 0x04)] ++ centralSigAt 8204 ++
    centralSigAt 8250 ++ [(8274, 1)])

/-- A sample of 8400 bytes: the local file header signature at offset 0 and, at the
start of the scan window, a central-directory header with `filename_len = 10` and
`uncompressed_size = 100`. -/
def acceptSample : Nat → Nat :=
  bytesAt ([(0, 0x50), (1, 0x4B), (2, 0x03), (3, 0x04)] ++ centralSigAt 8304 ++
    [(8328, 100), (8332, 10)])

/-- A sample of 8300 bytes whose first central-directory signature, at 8260, leaves
fewer than 46 bytes to the end, followed by a second signature at 8270. -/
def truncatedSample : Nat → Nat :=
  bytesAt (centralSigAt 8260 ++ centralSigAt 8270 ++ [(8294, 1)])

/-- A sample of `2 ^ 32 + 8300` bytes whose scan window starts with a central-directory
header with `filename_len = 0` and `uncompressed_size = 2 ^ 32 - 1`. -/
def hugeSample : Nat → Nat :=
  bytesAt (centralSigAt 4294975500 ++
    [(4294975524, 0xFF), (4294975525, 0xFF), (4294975526, 0xFF), (4294975527, 0xFF)])

/-- A sample of 8400 bytes with the same central-directory header as `acceptSample`
at the start of the scan window, and zero bytes at offset 0. -/
def noLocalSample : Nat → Nat :=
  bytesAt (centralSigAt 8304 ++ [(8328, 100), (8332, 10)])

/-- A sample of 95 bytes that holds the central-directory signature at offset 10. -/
def smallSample : Nat → Nat :=
  bytesAt (centralSigAt 10 ++ [(34, 1)])

/-- A sample of 8400 bytes whose only central-directory signature is at 8200, before
the scan window, which starts at 8304. -/
def earlySigSample : Nat → Nat :=
  bytesAt (centralSigAt 8200 ++ [(8224, 1)])

/-! ## ConstantRangeTracker and SHMRangeTracker -/

/-- `ConstantRangeTracker::ExtractRanges(ranges)` of a tracker whose fields `from` and
`to` hold `tracker_from` and `tracker_to`. -/
def ConstantRangeTracker.ExtractRanges (tracker_from tracker_to : Nat) (ranges : List Range) :
    List Range :=
  ranges ++ [⟨tracker_from, tracker_to⟩]

/-- The value the constructor `SHMRangeTracker::SHMRangeTracker(name, size)` gives to
`max_ranges`: `(size - sizeof(uint32_t)) / sizeof(uint32_t)`, for `size >= 4`. -/
def SHMRangeTracker.max_ranges (size : Nat) : Nat := (size - 4) / 4

/-- The message of the `WARN` call in `SHMRangeTracker::ExtractRanges`. -/
def RANGES_WARNING : String := "Number of ranges exceeds buffer size."

/-- The loop of `SHMRangeTracker::ExtractRanges` that fills `tmpranges`: `numranges`
iterations, each reading `from` and `to` through `buf` and advancing it; `buf` is the
byte offset of the pointer in the region of `size` bytes. `none` is a read outside the
region. -/
def readPairs (data : Nat → Nat) (size : Nat) : Nat → Nat → Option (List Range)
  | 0, _ => some []
  | numranges + 1, buf =>
    match read32 data size buf, read32 data size (buf + 4) with
    | some range_from, some range_to =>
      match readPairs data size numranges (buf + 8) with
      | some rest => some (⟨range_from, range_to⟩ :: rest)
      | none => none
    | _, _ => none

/-- `SHMRangeTracker::ExtractRanges(ranges)` on a tracker whose region of `size` bytes
holds `data` and whose field `max_ranges` is given. The result is the final content of
`ranges` with the warnings raised; `none` is a read outside the region. -/
def SHMRangeTracker.ExtractRanges (sort : List Range → List Range) (data : Nat → Nat)
    (size max_ranges : Nat) (ranges : List Range) : Option (List Range × List String) :=
  match read32 data size 0 with
  | none => none
  | some count =>
    if count = 0 then some (ranges, [])
    else
      let warnings : List String := if count > max_ranges then [RANGES_WARNING] else []
      let numranges := if count > max_ranges then max_ranges else count
      match readPairs data size numranges 4 with
      | none => none
      | some tmpranges => some (ConsolidateRanges sort tmpranges ranges, warnings)

/-- The first `n` pairs `(from, to)` stored after the count word, in buffer order. -/
def pairsOf (data : Nat → Nat) (n : Nat) : List Range :=
  (List.range n).map (fun k => ⟨le32 data (4 + 8 * k), le32 data (8 + 8 * k)⟩)

/-- A little-endian 32-bit word `v < 256` stored at byte offset `i`. -/
def wordAt (i v : Nat) : List (Nat × Nat) := [(i, v)]

/-- A region of 28 bytes: count 3 and the pairs `(5,10)`, `(1,3)`, `(9,15)`. -/
def shmRegion : Nat → Nat :=
  bytesAt (wordAt 0 3 ++ wordAt 4 5 ++ wordAt 8 10 ++ wordAt 12 1 ++ wordAt 16 3 ++
    wordAt 20 9 ++ wordAt 24 15)

/-- A region of 20 bytes, room for the count and two pairs, whose count word is 4. -/
def overfullRegion : Nat → Nat :=
  bytesAt (wordAt 0 4 ++ wordAt 4 5 ++ wordAt 8 10 ++ wordAt 12 1 ++ wordAt 16 3)

/-- A region of 12 bytes whose count word is 0. -/
def emptyRegion : Nat → Nat := bytesAt []

/-- The last output range after a range `c` with `c.from <= last.to` has been merged
into it. -/
def extend (last c : Range) : Range :=
  if c.to > last.to then ⟨last.from, c.to⟩ else last

/-- Two consecutive output ranges: the second starts no earlier than the first and
strictly after the end of the first. -/
def Separated (a b : Range) : Prop := a.from ≤ b.from ∧ a.to < b.from

/-- The loop of `ConsolidateRanges` seen from its last output range `last`: the ranges
of the output from `last` on, once the remaining input has been processed. -/
def sweep (last : Range) : List Range → List Range
  | [] => [last]
  | c :: rest =>
    if c.from ≤ last.to then
      if c.to > last.to then sweep ⟨last.from, c.to⟩ rest else sweep last rest
    else last :: sweep c rest

/-- The ranges `ConsolidateRanges` appends for a sorted input. -/
def sweepAll : List Range → List Range
  | [] => []
  | first :: rest => sweep first rest

/-! ## Lemmas on the consolidation loop -/

theorem consolidateLoop_eq_sweep (rest : List Range) : ∀ (pre : List Range) (last : Range),
    consolidateLoop rest (pre ++ [last]) = pre ++ sweep last rest := by
  induction rest with
  | nil => intro pre last; simp [consolidateLoop, sweep]
  | cons c rest ih =>
    intro pre last
    simp only [consolidateLoop, sweep, List.getLast?_concat, List.dropLast_concat]
    split_ifs with h1 h2
    · exact ih pre ⟨last.from, c.to⟩
    · exact ih pre last
    · rw [ih (pre ++ [last]) c]; simp

theorem notAfter_iff (a b : Range) : Range.notAfter a b ↔ a.from ≤ b.from := by
  simp [Range.notAfter, Range.lt]

theorem stdSort_nil {sort : List Range → List Range} (hs : IsStdSort sort) : sort [] = [] :=
  List.Perm.eq_nil (hs []).1

theorem consolidate_eq_sweepAll {sort : List Range → List Range} (hs : IsStdSort sort)
    (inranges outranges : List Range) :
    ConsolidateRanges sort inranges outranges = outranges ++ sweepAll (sort inranges) := by
  unfold ConsolidateRanges
  cases inranges with
  | nil => simp [stdSort_nil hs, sweepAll]
  | cons a l =>
    simp only [List.isEmpty_cons, Bool.false_eq_true, if_false]
    cases h : sort (a :: l) with
    | nil => simp [sweepAll]
    | cons f r => simp [sweepAll, consolidateLoop_eq_sweep]

theorem covers_cons (a : Range) (l : List Range) (x : Nat) :
    covers (a :: l) x = ((decide (a.from ≤ x) && decide (x ≤ a.to)) || covers l x) := by
  simp [covers]

theorem covers_perm {l l' : List Range} (h : l.Perm l') (x : Nat) : covers l x = covers l' x := by
  rw [Bool.eq_iff_iff]
  simp only [covers, List.any_eq_true]
  constructor
  · rintro ⟨r, hr, hx⟩; exact ⟨r, h.mem_iff.1 hr, hx⟩
  · rintro ⟨r, hr, hx⟩; exact ⟨r, h.mem_iff.2 hr, hx⟩

theorem sweep_covers (rest : List Range) : ∀ last : Range,
    (last :: rest).Pairwise Range.notAfter →
    ∀ x, covers (sweep last rest) x = covers (last :: rest) x := by
  induction rest with
  | nil => intro last _ x; simp [sweep]
  | cons c rest ih =>
    intro last hs x
    rw [List.pairwise_cons] at hs
    obtain ⟨hl, hrest⟩ := hs
    have hlc : last.from ≤ c.from := (notAfter_iff _ _).1 (hl c (List.mem_cons_self _ _))
    have hlr : (last :: rest).Pairwise Range.notAfter :=
      List.pairwise_cons.2 ⟨fun b hb => hl b (List.mem_cons_of_mem _ hb),
        (List.pairwise_cons.1 hrest).2⟩
    simp only [sweep]
    split_ifs with h1 h2
    · have hm : ((⟨last.from, c.to⟩ : Range) :: rest).Pairwise Range.notAfter :=
        List.pairwise_cons.2 ⟨fun b hb => (notAfter_iff _ _).2
          ((notAfter_iff _ _).1 (hl b (List.mem_cons_of_mem _ hb))),
          (List.pairwise_cons.1 hrest).2⟩
      rw [ih _ hm x, Bool.eq_iff_iff]
      simp only [covers_cons, Bool.or_eq_true, Bool.and_eq_true, decide_eq_true_eq]
      by_cases hP : covers rest x = true
      · simp [hP]
      · simp only [hP, Bool.false_eq_true, or_false]
        constructor <;> intro hh <;> omega
    · rw [ih _ hlr x, Bool.eq_iff_iff]
      simp only [covers_cons, Bool.or_eq_true, Bool.and_eq_true, decide_eq_true_eq]
      by_cases hP : covers rest x = true
      · simp [hP]
      · simp only [hP, Bool.false_eq_true, or_false]
        constructor <;> intro hh <;> omega
    · rw [covers_cons, ih _ hrest x, covers_cons last (c :: rest)]

theorem sweepAll_covers {s : List Range} (hs : s.Pairwise Range.notAfter) (x : Nat) :
    covers (sweepAll s) x = covers s x := by
  cases s with
  | nil => rfl
  | cons a l => exact sweep_covers l a hs x

theorem sweep_from_mem (rest : List Range) : ∀ (last o : Range),
    o ∈ sweep last rest → ∃ r ∈ last :: rest, o.from = r.from := by
  induction rest with
  | nil =>
    intro last o ho
    simp only [sweep, List.mem_singleton] at ho
    exact ⟨last, List.mem_cons_self _ _, by rw [ho]⟩
  | cons c rest ih =>
    intro last o ho
    simp only [sweep] at ho
    split_ifs at ho with h1 h2
    · obtain ⟨r, hr, hro⟩ := ih _ o ho
      rcases List.mem_cons.1 hr with h | h
      · exact ⟨last, List.mem_cons_self _ _, by rw [hro, h]⟩
      · exact ⟨r, List.mem_cons_of_mem _ (List.mem_cons_of_mem _ h), hro⟩
    · obtain ⟨r, hr, hro⟩ := ih _ o ho
      rcases List.mem_cons.1 hr with h | h
      · exact ⟨last, List.mem_cons_self _ _, by rw [hro, h]⟩
      · exact ⟨r, List.mem_cons_of_mem _ (List.mem_cons_of_mem _ h), hro⟩
    · rcases List.mem_cons.1 ho with h | h
      · exact ⟨last, List.mem_cons_self _ _, by rw [h]⟩
      · obtain ⟨r, hr, hro⟩ := ih _ o h
        exact ⟨r, List.mem_cons_of_mem _ hr, hro⟩

theorem sweep_pairwise (rest : List Range) : ∀ last : Range,
    (last :: rest).Pairwise Range.notAfter →
    (sweep last rest).Pairwise Separated := by
  induction rest with
  | nil => intro last _; simp [sweep]
  | cons c rest ih =>
    intro last hs
    rw [List.pairwise_cons] at hs
    obtain ⟨hl, hrest⟩ := hs
    simp only [sweep]
    split_ifs with h1 h2
    · exact ih _ (List.pairwise_cons.2 ⟨fun b hb => (notAfter_iff _ _).2
        ((notAfter_iff _ _).1 (hl b (List.mem_cons_of_mem _ hb))),
        (List.pairwise_cons.1 hrest).2⟩)
    · exact ih _ (List.pairwise_cons.2 ⟨fun b hb => hl b (List.mem_cons_of_mem _ hb),
        (List.pairwise_cons.1 hrest).2⟩)
    · refine List.pairwise_cons.2 ⟨?_, ih _ hrest⟩
      intro o ho
      obtain ⟨r, hr, hro⟩ := sweep_from_mem rest c o ho
      have hlr : last.from ≤ r.from := (notAfter_iff _ _).1 (hl r hr)
      have hcr : c.from ≤ r.from := by
        rcases List.mem_cons.1 hr with h | h
        · rw [h]
        · exact (notAfter_iff _ _).1 ((List.pairwise_cons.1 hrest).1 r h)
      unfold Separated
      omega

theorem sweep_contains (rest : List Range) : ∀ last : Range,
    (last :: rest).Pairwise Range.notAfter →
    ∀ r ∈ last :: rest, ∃ o ∈ sweep last rest, o.from ≤ r.from ∧ r.to ≤ o.to := by
  induction rest with
  | nil =>
    intro last _ r hr
    simp only [List.mem_singleton] at hr
    exact ⟨last, by simp [sweep], by rw [hr], by rw [hr]⟩
  | cons c rest ih =>
    intro last hs r hr
    rw [List.pairwise_cons] at hs
    obtain ⟨hl, hrest⟩ := hs
    have hlc : last.from ≤ c.from := (notAfter_iff _ _).1 (hl c (List.mem_cons_self _ _))
    simp only [sweep]
    split_ifs with h1 h2
    · have hm : ((⟨last.from, c.to⟩ : Range) :: rest).Pairwise Range.notAfter :=
        List.pairwise_cons.2 ⟨fun b hb => (notAfter_iff _ _).2
          ((notAfter_iff _ _).1 (hl b (List.mem_cons_of_mem _ hb))),
          (List.pairwise_cons.1 hrest).2⟩
      obtain ⟨o, ho, ho1, ho2⟩ := ih _ hm ⟨last.from, c.to⟩ (List.mem_cons_self _ _)
      simp only at ho1 ho2
      rcases List.mem_cons.1 hr with h | h
      · exact ⟨o, ho, by rw [h]; exact ho1, by rw [h]; omega⟩
      · rcases List.mem_cons.1 h with h | h
        · exact ⟨o, ho, by rw [h]; omega, by rw [h]; exact ho2⟩
        · exact ih _ hm r (List.mem_cons_of_mem _ h)
    · have hm : (last :: rest).Pairwise Range.notAfter :=
        List.pairwise_cons.2 ⟨fun b hb => hl b (List.mem_cons_of_mem _ hb),
          (List.pairwise_cons.1 hrest).2⟩
      rcases List.mem_cons.1 hr with h | h
      · exact ih _ hm r (h ▸ List.mem_cons_self _ _)
      · rcases List.mem_cons.1 h with h | h
        · obtain ⟨o, ho, ho1, ho2⟩ := ih _ hm last (List.mem_cons_self _ _)
          exact ⟨o, ho, by rw [h]; omega, by rw [h]; omega⟩
        · exact ih _ hm r (List.mem_cons_of_mem _ h)
    · rcases List.mem_cons.1 hr with h | h
      · exact ⟨last, List.mem_cons_self _ _, by rw [h], by rw [h]⟩
      · obtain ⟨o, ho, hh⟩ := ih _ hrest r h
        exact ⟨o, List.mem_cons_of_mem _ ho, hh⟩

theorem sweep_fixed (rest : List Range) : ∀ last : Range,
    (last :: rest).Pairwise (fun a b => a.to < b.from) → sweep last rest = last :: rest := by
  induction rest with
  | nil => intro last _; rfl
  | cons c rest ih =>
    intro last hs
    rw [List.pairwise_cons] at hs
    have h1 : ¬ c.from ≤ last.to := Nat.not_le.2 (hs.1 c (List.mem_cons_self _ _))
    simp only [sweep, h1, if_false]
    rw [ih c hs.2]

theorem sweepAll_fixed {l : List Range} (h : l.Pairwise (fun a b => a.to < b.from)) :
    sweepAll l = l := by
  cases l with
  | nil => rfl
  | cons a l => exact sweep_fixed l a h

theorem sweepAll_pairwise {s : List Range} (hs : s.Pairwise Range.notAfter) :
    (sweepAll s).Pairwise Separated := by
  cases s with
  | nil => simp [sweepAll]
  | cons a l => exact sweep_pairwise l a hs

theorem sweepAll_contains {s : List Range} (hs : s.Pairwise Range.notAfter) :
    ∀ r ∈ s, ∃ o ∈ sweepAll s, o.from ≤ r.from ∧ r.to ≤ o.to := by
  cases s with
  | nil => intro r hr; simp at hr
  | cons a l => exact sweep_contains l a hs

theorem sweep_valid (rest : List Range) : ∀ last : Range,
    (∀ r ∈ last :: rest, r.from ≤ r.to) → ∀ o ∈ sweep last rest, o.from ≤ o.to := by
  induction rest with
  | nil =>
    intro last hv o ho
    simp only [sweep, List.mem_singleton] at ho
    exact ho ▸ hv last (List.mem_cons_self _ _)
  | cons c rest ih =>
    intro last hv o ho
    have hlast := hv last (List.mem_cons_self _ _)
    have hrest : ∀ r ∈ rest, r.from ≤ r.to := fun r hr =>
      hv r (List.mem_cons_of_mem _ (List.mem_cons_of_mem _ hr))
    simp only [sweep] at ho
    split_ifs at ho with h1 h2
    · refine ih ⟨last.from, c.to⟩ ?_ o ho
      intro r hr
      rcases List.mem_cons.1 hr with h | h
      · rw [h]; simp only; omega
      · exact hrest r h
    · refine ih last ?_ o ho
      intro r hr
      rcases List.mem_cons.1 hr with h | h
      · rw [h]; exact hlast
      · exact hrest r h
    · rcases List.mem_cons.1 ho with h | h
      · rw [h]; exact hlast
      · exact ih c (fun r hr => hv r (List.mem_cons_of_mem _ hr)) o h

theorem sweepAll_valid {s : List Range} (hv : ∀ r ∈ s, r.from ≤ r.to) :
    ∀ o ∈ sweepAll s, o.from ≤ o.to := by
  cases s with
  | nil => intro o ho; simp [sweepAll] at ho
  | cons a l => exact sweep_valid l a hv

/-- A list sorted by `from` that is a permutation of a list with strictly increasing
`from` is that list. -/
theorem perm_sorted_unique (l : List Range) : ∀ s : List Range, s.Perm l →
    s.Pairwise Range.notAfter → l.Pairwise (fun a b => a.from < b.from) → s = l := by
  induction l with
  | nil => intro s hp _ _; exact hp.eq_nil
  | cons a l ih =>
    intro s hp hs hl
    cases s with
    | nil => exact absurd hp.symm.eq_nil (List.cons_ne_nil _ _)
    | cons b s =>
      rw [List.pairwise_cons] at hs hl
      have hba : b = a := by
        rcases List.mem_cons.1 (hp.mem_iff.1 (List.mem_cons_self b s)) with h | h
        · exact h
        · have h1 : a.from < b.from := hl.1 b h
          rcases List.mem_cons.1 (hp.mem_iff.2 (List.mem_cons_self a l)) with h' | h'
          · exact h'.symm
          · have h2 : b.from ≤ a.from := (notAfter_iff _ _).1 (hs.1 a h')
            omega
      subst hba
      rw [ih s (List.Perm.cons_inv hp) hs.2 hl.2]

theorem stableSort_isStdSort : IsStdSort stableSort := by
  intro l
  haveI : IsTotal Range (fun a b => a.from ≤ b.from) := ⟨fun a b => Nat.le_total _ _⟩
  haveI : IsTrans Range (fun a b => a.from ≤ b.from) := ⟨fun a b c h1 h2 => Nat.le_trans h1 h2⟩
  refine ⟨List.perm_insertionSort _ l, ?_⟩
  exact List.Pairwise.imp (fun h => (notAfter_iff _ _).2 h)
    (List.sorted_insertionSort (fun a b : Range => a.from ≤ b.from) l)

theorem reversingSort_isStdSort : IsStdSort reversingSort := by
  intro l
  haveI : IsTotal Range (fun a b => a.from ≤ b.from) := ⟨fun a b => Nat.le_total _ _⟩
  haveI : IsTrans Range (fun a b => a.from ≤ b.from) := ⟨fun a b c h1 h2 => Nat.le_trans h1 h2⟩
  refine ⟨(List.perm_insertionSort _ l.reverse).trans (List.reverse_perm l), ?_⟩
  exact List.Pairwise.imp (fun h => (notAfter_iff _ _).2 h)
    (List.sorted_insertionSort (fun a b : Range => a.from ≤ b.from) l.reverse)

theorem countP_le_one_of_separated (r : Range) (hr : r.from ≤ r.to) (l : List Range)
    (hl : l.Pairwise (fun a b => a.to < b.from)) :
    l.countP (fun o => decide (o.from ≤ r.from ∧ r.to ≤ o.to)) ≤ 1 := by
  induction l with
  | nil => simp
  | cons a l ih =>
    rw [List.pairwise_cons] at hl
    by_cases ha : a.from ≤ r.from ∧ r.to ≤ a.to
    · have h0 : l.countP (fun o => decide (o.from ≤ r.from ∧ r.to ≤ o.to)) = 0 := by
        rw [List.countP_eq_zero]
        intro b hb
        have := hl.1 b hb
        simp only [decide_eq_true_eq]
        omega
      rw [List.countP_cons_of_pos _ _ (by simpa using ha), h0]
    · rw [List.countP_cons_of_neg _ _ (by simpa using ha)]
      exact ih hl.2

/-! ## Claims on ConsolidateRanges -/

/-- C1: for every input list, inverted pairs included, and whatever order `std::sort`
gives to ranges with equal `from`, an offset lies in some range of the output of
`ConsolidateRanges` (called with an empty output) exactly when it lies in some range of
the input. -/
theorem consolidate_covers_exactly_input (sort : List Range → List Range)
    (hsort : IsStdSort sort) (inranges : List Range) (x : Nat) :
    (∃ o ∈ ConsolidateRanges sort inranges [], o.from ≤ x ∧ x ≤ o.to)
      ↔ (∃ r ∈ inranges, r.from ≤ x ∧ x ≤ r.to) := by
  have h : covers (ConsolidateRanges sort inranges []) x = covers inranges x := by
    rw [consolidate_eq_sweepAll hsort, List.nil_append, sweepAll_covers (hsort _).2,
      covers_perm (hsort _).1]
  rw [Bool.eq_iff_iff] at h
  simpa [covers] using h

/-- C1 at a concrete input with an inverted pair, a stable sort and the offset 12. -/
theorem consolidate_covers_exactly_input_witness :
    IsStdSort stableSort ∧
    ((∃ o ∈ ConsolidateRanges stableSort [⟨5, 10⟩, ⟨7, 2⟩, ⟨9, 15⟩, ⟨1, 3⟩] [],
        o.from ≤ 12 ∧ 12 ≤ o.to)
      ↔ (∃ r ∈ [(⟨5, 10⟩ : Range), ⟨7, 2⟩, ⟨9, 15⟩, ⟨1, 3⟩], r.from ≤ 12 ∧ 12 ≤ r.to)) :=
  ⟨stableSort_isStdSort,
    consolidate_covers_exactly_input stableSort stableSort_isStdSort
      [⟨5, 10⟩, ⟨7, 2⟩, ⟨9, 15⟩, ⟨1, 3⟩] 12⟩

/-- C2: for every input list, the output of `ConsolidateRanges` (called with an empty
output) has non-decreasing `from` values, and every adjacent pair of it satisfies
`output[i].to < output[i+1].from`. -/
theorem consolidate_sorted_and_disjoint (sort : List Range → List Range)
    (hsort : IsStdSort sort) (inranges : List Range) :
    (ConsolidateRanges sort inranges []).Pairwise (fun a b => a.from ≤ b.from)
      ∧ (ConsolidateRanges sort inranges []).Chain' (fun a b => a.to < b.from) := by
  rw [consolidate_eq_sweepAll hsort, List.nil_append]
  have h := sweepAll_pairwise (hsort inranges).2
  exact ⟨h.imp (fun hab => hab.1), (h.imp (fun hab => hab.2)).chain'⟩

/-- C2 at a concrete input with an inverted pair and a sort that reverses ties. -/
theorem consolidate_sorted_and_disjoint_witness :
    IsStdSort reversingSort ∧
    ((ConsolidateRanges reversingSort [⟨5, 10⟩, ⟨5, 3⟩, ⟨9, 15⟩, ⟨20, 20⟩] []).Pairwise
        (fun a b => a.from ≤ b.from)
      ∧ (ConsolidateRanges reversingSort [⟨5, 10⟩, ⟨5, 3⟩, ⟨9, 15⟩, ⟨20, 20⟩] []).Chain'
        (fun a b => a.to < b.from)) :=
  ⟨reversingSort_isStdSort,
    consolidate_sorted_and_disjoint reversingSort reversingSort_isStdSort
      [⟨5, 10⟩, ⟨5, 3⟩, ⟨9, 15⟩, ⟨20, 20⟩]⟩

/-- C3: when every input range satisfies `from <= to`, each input range lies inside
exactly one range of the output of `ConsolidateRanges` (called with an empty output):
the number of output ranges `o` with `o.from <= r.from` and `r.to <= o.to` is one. -/
theorem consolidate_input_in_exactly_one_output (sort : List Range → List Range)
    (hsort : IsStdSort sort) (inranges : List Range)
    (hvalid : ∀ r ∈ inranges, r.from ≤ r.to) (r : Range) (hr : r ∈ inranges) :
    (ConsolidateRanges sort inranges []).countP
      (fun o => decide (o.from ≤ r.from ∧ r.to ≤ o.to)) = 1 := by
  rw [consolidate_eq_sweepAll hsort, List.nil_append]
  have hsep := (sweepAll_pairwise (hsort inranges).2).imp (fun hab => hab.2)
  have hle := countP_le_one_of_separated r (hvalid r hr) _ hsep
  obtain ⟨o, ho, hor⟩ := sweepAll_contains (hsort inranges).2 r ((hsort inranges).1.mem_iff.2 hr)
  have hpos : 0 < (sweepAll (sort inranges)).countP
      (fun o => decide (o.from ≤ r.from ∧ r.to ≤ o.to)) :=
    List.countP_pos_iff.2 ⟨o, ho, by simpa using hor⟩
  omega

/-- C3 at the example input of the specification and its range `(9,15)`. -/
theorem consolidate_input_in_exactly_one_output_witness :
    IsStdSort stableSort ∧ (∀ r ∈ [(⟨5, 10⟩ : Range), ⟨1, 3⟩, ⟨9, 15⟩, ⟨20, 20⟩], r.from ≤ r.to)
    ∧ (⟨9, 15⟩ : Range) ∈ [(⟨5, 10⟩ : Range), ⟨1, 3⟩, ⟨9, 15⟩, ⟨20, 20⟩]
    ∧ (ConsolidateRanges stableSort [⟨5, 10⟩, ⟨1, 3⟩, ⟨9, 15⟩, ⟨20, 20⟩] []).countP
      (fun o => decide (o.from ≤ (⟨9, 15⟩ : Range).from ∧ (⟨9, 15⟩ : Range).to ≤ o.to)) = 1 :=
  ⟨stableSort_isStdSort, by decide, by decide,
    consolidate_input_in_exactly_one_output stableSort stableSort_isStdSort
      [⟨5, 10⟩, ⟨1, 3⟩, ⟨9, 15⟩, ⟨20, 20⟩] (by decide) ⟨9, 15⟩ (by decide)⟩

/-- C4, as stated, fails: the ranges `(1,2)` and `(3,4)` touch without sharing an
offset, the loop keeps both, and `2 + 1 < 3` is false. -/
theorem consolidate_touching_counterexample :
    IsStdSort stableSort
    ∧ ConsolidateRanges stableSort [⟨1, 2⟩, ⟨3, 4⟩] [] = [⟨1, 2⟩, ⟨3, 4⟩]
    ∧ ¬ (ConsolidateRanges stableSort [⟨1, 2⟩, ⟨3, 4⟩] []).Chain'
        (fun a b => a.to + 1 < b.from) := by
  have hout : ConsolidateRanges stableSort [⟨1, 2⟩, ⟨3, 4⟩] [] = [⟨1, 2⟩, ⟨3, 4⟩] := by
    decide
  refine ⟨stableSort_isStdSort, hout, ?_⟩
  rw [hout]
  simp

/-- C4, amended: for every input list, the output of `ConsolidateRanges` (called with an
empty output) is pairwise non-overlapping: every range of it ends strictly before each
later one starts, `output[i].to < output[j].from` for `i < j`. Ranges that only touch,
`to + 1 = from`, are not merged. -/
theorem consolidate_pairwise_disjoint (sort : List Range → List Range)
    (hsort : IsStdSort sort) (inranges : List Range) :
    (ConsolidateRanges sort inranges []).Pairwise (fun a b => a.to < b.from) := by
  rw [consolidate_eq_sweepAll hsort, List.nil_append]
  exact (sweepAll_pairwise (hsort inranges).2).imp (fun hab => hab.2)

/-- C4, amended, at a concrete input with touching, overlapping and inverted ranges. -/
theorem consolidate_pairwise_disjoint_witness :
    IsStdSort stableSort
    ∧ (ConsolidateRanges stableSort [⟨1, 2⟩, ⟨3, 4⟩, ⟨4, 9⟩, ⟨20, 7⟩] []).Pairwise
        (fun a b => a.to < b.from) :=
  ⟨stableSort_isStdSort,
    consolidate_pairwise_disjoint stableSort stableSort_isStdSort
      [⟨1, 2⟩, ⟨3, 4⟩, ⟨4, 9⟩, ⟨20, 7⟩]⟩

/-- C5, as stated, fails when an inverted pair shares its `from` with another range and
the sort does not keep the order of equal elements: with a sort that reverses ties, the
input `[(5,10), (5,3)]` gives `[(5,3), (5,10)]`, and consolidating that gives
`[(5,10)]`. -/
theorem consolidate_idempotent_counterexample :
    IsStdSort reversingSort
    ∧ ConsolidateRanges reversingSort [⟨5, 10⟩, ⟨5, 3⟩] [] = [⟨5, 3⟩, ⟨5, 10⟩]
    ∧ ConsolidateRanges reversingSort
        (ConsolidateRanges reversingSort [⟨5, 10⟩, ⟨5, 3⟩] []) [] = [⟨5, 10⟩]
    ∧ ConsolidateRanges reversingSort
        (ConsolidateRanges reversingSort [⟨5, 10⟩, ⟨5, 3⟩] []) []
      ≠ ConsolidateRanges reversingSort [⟨5, 10⟩, ⟨5, 3⟩] [] :=
  ⟨reversingSort_isStdSort, by decide, by decide, by decide⟩

/-- C5, amended: `ConsolidateRanges` is idempotent for every input list in which each
range satisfies `from <= to`, whatever order the sort gives to equal `from` values; and
for every input list at all when the sort leaves a sequence that is already sorted by
`from` unchanged. -/
theorem consolidate_idempotent (sort : List Range → List Range)
    (hsort : IsStdSort sort) (inranges : List Range)
    (h : (∀ r ∈ inranges, r.from ≤ r.to)
      ∨ (∀ l : List Range, l.Pairwise Range.notAfter → sort l = l)) :
    ConsolidateRanges sort (ConsolidateRanges sort inranges []) []
      = ConsolidateRanges sort inranges [] := by
  rw [consolidate_eq_sweepAll hsort inranges, consolidate_eq_sweepAll hsort, List.nil_append,
    List.nil_append]
  have hsep := sweepAll_pairwise (hsort inranges).2
  have hfix : sort (sweepAll (sort inranges)) = sweepAll (sort inranges) := by
    rcases h with hv | hstable
    · have hv2 : ∀ o ∈ sweepAll (sort inranges), o.from ≤ o.to :=
        sweepAll_valid (fun r hr => hv r ((hsort inranges).1.mem_iff.1 hr))
      refine perm_sorted_unique _ _ (hsort _).1 (hsort _).2 ?_
      refine List.Pairwise.imp_of_mem ?_ hsep
      intro a b ha _ hab
      have := hv2 a ha
      have := hab.2
      omega
    · exact hstable _ (hsep.imp (fun hab => (notAfter_iff _ _).2 hab.1))
  rw [hfix]
  exact sweepAll_fixed (hsep.imp (fun hab => hab.2))

/-- C5, amended, at a concrete input of ranges with `from <= to` and a sort that reverses ties. -/
theorem consolidate_idempotent_witness :
    IsStdSort reversingSort
    ∧ ((∀ r ∈ [(⟨5, 10⟩ : Range), ⟨1, 3⟩, ⟨5, 7⟩, ⟨20, 20⟩], r.from ≤ r.to)
      ∨ (∀ l : List Range, l.Pairwise Range.notAfter → reversingSort l = l))
    ∧ ConsolidateRanges reversingSort
        (ConsolidateRanges reversingSort [⟨5, 10⟩, ⟨1, 3⟩, ⟨5, 7⟩, ⟨20, 20⟩] []) []
      = ConsolidateRanges reversingSort [⟨5, 10⟩, ⟨1, 3⟩, ⟨5, 7⟩, ⟨20, 20⟩] [] :=
  ⟨reversingSort_isStdSort, Or.inl (by decide),
    consolidate_idempotent reversingSort reversingSort_isStdSort
      [⟨5, 10⟩, ⟨1, 3⟩, ⟨5, 7⟩, ⟨20, 20⟩] (Or.inl (by decide))⟩

/-- C6: whatever order `std::sort` gives to equal elements, `ConsolidateRanges` applied to
`[(5,10), (1,3), (9,15), (20,20)]` with an empty output produces exactly
`[(1,3), (5,15), (20,20)]`, and applied to the empty input it produces the empty
output. -/
theorem consolidate_example (sort : List Range → List Range) (hsort : IsStdSort sort) :
    ConsolidateRanges sort [⟨5, 10⟩, ⟨1, 3⟩, ⟨9, 15⟩, ⟨20, 20⟩] []
        = [⟨1, 3⟩, ⟨5, 15⟩, ⟨20, 20⟩]
      ∧ ConsolidateRanges sort [] [] = [] := by
  constructor
  · have hp : (sort [⟨5, 10⟩, ⟨1, 3⟩, ⟨9, 15⟩, ⟨20, 20⟩]).Perm
        [⟨1, 3⟩, ⟨5, 10⟩, ⟨9, 15⟩, ⟨20, 20⟩] :=
      (hsort _).1.trans (by decide)
    have hu := perm_sorted_unique _ _ hp (hsort _).2 (by decide)
    rw [consolidate_eq_sweepAll hsort, hu]
    decide
  · rfl

/-- C6 with a stable sort. -/
theorem consolidate_example_witness :
    IsStdSort stableSort
    ∧ (ConsolidateRanges stableSort [⟨5, 10⟩, ⟨1, 3⟩, ⟨9, 15⟩, ⟨20, 20⟩] []
        = [⟨1, 3⟩, ⟨5, 15⟩, ⟨20, 20⟩]
      ∧ ConsolidateRanges stableSort [] [] = []) :=
  ⟨stableSort_isStdSort, consolidate_example stableSort stableSort_isStdSort⟩

/-! ## Lemmas on the scan loop -/

theorem scanLoop_exit (data : Nat → Nat) (size fuel i : Nat) (ranges : List Range)
    (h4 : 4 ≤ size) (hi : ¬ i ≤ size - 4) :
    scanLoop data size (fuel + 1) i ranges = some ranges := by
  have h : ¬ size < 4 := by omega
  simp [scanLoop, hi, h]

theorem scanLoop_step (data : Nat → Nat) (size fuel i : Nat) (ranges : List Range)
    (h4 : 4 ≤ size) (hi : i ≤ size - 4) :
    scanLoop data size (fuel + 1) i ranges =
      if emitsAt data size i then some (ranges ++ [candidate data i])
      else scanLoop data size fuel (i + 1) ranges := by
  have hr : read32 data size i = some (le32 data i) := by
    unfold read32; rw [if_pos (by omega)]
  have hnot : ¬ size < 4 := by omega
  conv_lhs => unfold scanLoop
  unfold emitsAt
  simp only [hnot, if_false, hi, if_true, hr]
  by_cases hsig : le32 data i = SIG_PK_CENTRAL
  · by_cases hfit : i + HEADER_SIZE ≤ size
    · have h16 : read16 data size (i + OFF_FILENAME_LEN) =
          some (le16 data (i + OFF_FILENAME_LEN)) := by
        unfold read16; rw [if_pos (by unfold HEADER_SIZE at hfit; unfold OFF_FILENAME_LEN; omega)]
      have h32 : read32 data size (i + OFF_UNCOMPRESSED_SIZE) =
          some (le32 data (i + OFF_UNCOMPRESSED_SIZE)) := by
        unfold read32
        rw [if_pos (by unfold HEADER_SIZE at hfit; unfold OFF_UNCOMPRESSED_SIZE; omega)]
      simp only [hsig, hfit, if_true, h16, h32, true_and, inBounds, candidate]
    · simp [hsig, hfit]
  · simp [hsig]

theorem scanLoop_no_emit (data : Nat → Nat) (size : Nat) (ranges : List Range)
    (h4 : 4 ≤ size) : ∀ fuel i : Nat, size - 3 - i < fuel →
    (∀ j, i ≤ j → j ≤ size - 4 → ¬ emitsAt data size j) →
    scanLoop data size fuel i ranges = some ranges := by
  intro fuel
  induction fuel with
  | zero => intro i h; omega
  | succ fuel ih =>
    intro i hfuel hno
    by_cases hi : i ≤ size - 4
    · rw [scanLoop_step data size fuel i ranges h4 hi, if_neg (hno i (Nat.le_refl i) hi)]
      exact ih (i + 1) (by omega) (fun j hj => hno j (by omega))
    · exact scanLoop_exit data size fuel i ranges h4 hi

theorem scanLoop_first_emit (data : Nat → Nat) (size : Nat) (ranges : List Range)
    (h4 : 4 ≤ size) (j : Nat) (hj : j ≤ size - 4) (hemit : emitsAt data size j) :
    ∀ fuel i : Nat, i ≤ j → j - i < fuel →
    (∀ k, i ≤ k → k < j → ¬ emitsAt data size k) →
    scanLoop data size fuel i ranges = some (ranges ++ [candidate data j]) := by
  intro fuel
  induction fuel with
  | zero => intro i _ h; omega
  | succ fuel ih =>
    intro i hij hfuel hno
    rw [scanLoop_step data size fuel i ranges h4 (by omega)]
    by_cases heq : i = j
    · rw [heq, if_pos hemit]
    · rw [if_neg (hno i (Nat.le_refl i) (by omega))]
      exact ih (i + 1) (by omega) (by omega) (fun k hk => hno k (by omega))

theorem scanLoop_result (data : Nat → Nat) (size : Nat) (ranges : List Range)
    (h4 : 4 ≤ size) : ∀ fuel i : Nat, size - 3 - i < fuel →
    scanLoop data size fuel i ranges = some ranges
      ∨ ∃ j, i ≤ j ∧ j ≤ size - 4 ∧ emitsAt data size j
          ∧ scanLoop data size fuel i ranges = some (ranges ++ [candidate data j]) := by
  intro fuel
  induction fuel with
  | zero => intro i h; omega
  | succ fuel ih =>
    intro i hfuel
    by_cases hi : i ≤ size - 4
    · rw [scanLoop_step data size fuel i ranges h4 hi]
      by_cases hemit : emitsAt data size i
      · exact Or.inr ⟨i, Nat.le_refl i, hi, hemit, by rw [if_pos hemit]⟩
      · rw [if_neg hemit]
        rcases ih (i + 1) (by omega) with h | ⟨j, hj1, hj2, hj3, hj4⟩
        · exact Or.inl h
        · exact Or.inr ⟨j, by omega, hj2, hj3, hj4⟩
    · exact Or.inl (scanLoop_exit data size fuel i ranges h4 hi)

theorem extractRanges_scan (ranges : List Range) (data : Nat → Nat) (size : Nat) (v : Bool)
    (hsize : 96 ≤ size) (hzip : v = false ∨ le32 data 0 = SIG_PK_LOCAL) :
    ExtractRanges ranges data size v = scanLoop data size 96 (size - 96) [] := by
  have hr : read32 data size 0 = some (le32 data 0) := by
    unfold read32; rw [if_pos (by omega)]
  have h1 : ¬ size < 96 := by omega
  have h2 : ¬ size < 4 := by omega
  rcases hzip with hv | hl
  · simp [ExtractRanges, READ_SIZE, h1, hv, hsize]
  · cases v <;> simp [ExtractRanges, READ_SIZE, IsZIPFile, h1, h2, hr, hl, hsize]

theorem extractRanges_not_zip (ranges : List Range) (data : Nat → Nat) (size : Nat)
    (hsize : 96 ≤ size) (hl : le32 data 0 ≠ SIG_PK_LOCAL) :
    ExtractRanges ranges data size true = some [] := by
  have hr : read32 data size 0 = some (le32 data 0) := by
    unfold read32; rw [if_pos (by omega)]
  have h1 : ¬ size < 96 := by omega
  have h2 : ¬ size < 4 := by omega
  simp [ExtractRanges, READ_SIZE, IsZIPFile, h1, h2, hr, hl]

theorem extractRanges_small (ranges : List Range) (data : Nat → Nat) (size : Nat) (v : Bool)
    (hsize : size < 96) : ExtractRanges ranges data size v = some [] := by
  simp [ExtractRanges, READ_SIZE, hsize]

theorem rangeEnd_eq (filename_len uncompressed_size : Nat) :
    rangeEnd filename_len uncompressed_size
      = (8172 + filename_len + uncompressed_size - 1) % 4294967296 := by
  unfold rangeEnd TARGET_FILE_START UINT_MOD
  omega

theorem emitsAt_sig {data : Nat → Nat} {size i : Nat} (h : emitsAt data size i) :
    le32 data i = 0x02014B50 := h.1

/-! ## Claims on ZIPRangeTracker::ExtractRanges -/

/-- C7, as stated with `range_end` computed over the natural numbers, fails for a sample
larger than 4 GiB: the code evaluates `range_end` in `unsigned int`. In a sample of
`2 ^ 32 + 8300` bytes whose first match has `filename_len = 0` and
`uncompressed_size = 2 ^ 32 - 1`, the range `[8172, 2 ^ 32 + 8170]` meets every
condition of the claim, the code computes `range_end = 8170`, rejects the range and
leaves the output empty. -/
theorem extract_first_match_counterexample :
    96 ≤ 4294975596
    ∧ 4294975596 - 96 ≤ 4294975500 ∧ 4294975500 ≤ 4294975596 - 4
    ∧ le32 hugeSample 4294975500 = 0x02014B50
    ∧ (∀ j, 4294975596 - 96 ≤ j → j < 4294975500 → le32 hugeSample j ≠ 0x02014B50)
    ∧ 4294975500 + 46 ≤ 4294975596
    ∧ le16 hugeSample (4294975500 + 28) = 0
    ∧ le32 hugeSample (4294975500 + 24) = 4294967295
    ∧ 8172 + 0 < 4294975596
    ∧ 8172 + 0 + 4294967295 - 1 < 4294975596
    ∧ 8172 + 0 ≤ 8172 + 0 + 4294967295 - 1
    ∧ ExtractRanges [] hugeSample 4294975596 false = some []
    ∧ ExtractRanges [] hugeSample 4294975596 false
        ≠ some [⟨8172 + 0, 8172 + 0 + 4294967295 - 1⟩] :=
  ⟨by decide, by decide, by decide, by decide, fun j h1 h2 => by omega, by decide, by decide,
    by decide, by decide, by decide, by decide, by decide, by decide⟩

/-- C7, amended: for every sample with `sample_size >= 96` that passes the optional
local-header check, if `i` is the smallest offset in
`[sample_size - 96, sample_size - 4]` holding the signature `0x02014B50`,
`i + 46 <= sample_size`, and `range_start = 8172 + filename_len` and
`range_end = (range_start + uncompressed_size - 1) mod 2 ^ 32` satisfy
`range_start < sample_size`, `range_end < sample_size` and `range_start <= range_end`,
then `ExtractRanges` leaves the output equal to `[Range{range_start, range_end}]`,
whatever the output held before. -/
theorem extract_first_match_emits (ranges : List Range) (sample_data : Nat → Nat)
    (sample_size : Nat) (validate_zip : Bool) (i : Nat)
    (hsize : 96 ≤ sample_size)
    (hzip : validate_zip = false ∨ le32 sample_data 0 = 0x04034B50)
    (hlo : sample_size - 96 ≤ i) (hhi : i ≤ sample_size - 4)
    (hsig : le32 sample_data i = 0x02014B50)
    (hfirst : ∀ j, sample_size - 96 ≤ j → j < i → le32 sample_data j ≠ 0x02014B50)
    (hfit : i + 46 ≤ sample_size)
    (hstart : 8172 + le16 sample_data (i + 28) < sample_size)
    (hend : (8172 + le16 sample_data (i + 28) + le32 sample_data (i + 24) - 1) % 4294967296
      < sample_size)
    (hle : 8172 + le16 sample_data (i + 28)
      ≤ (8172 + le16 sample_data (i + 28) + le32 sample_data (i + 24) - 1) % 4294967296) :
    ExtractRanges ranges sample_data sample_size validate_zip
      = some [⟨8172 + le16 sample_data (i + 28),
          (8172 + le16 sample_data (i + 28) + le32 sample_data (i + 24) - 1) % 4294967296⟩] := by
  have hc : candidate sample_data i = ⟨8172 + le16 sample_data (i + 28),
      (8172 + le16 sample_data (i + 28) + le32 sample_data (i + 24) - 1) % 4294967296⟩ := by
    unfold candidate
    rw [rangeEnd_eq]
    rfl
  have hemit : emitsAt sample_data sample_size i := by
    refine ⟨hsig, hfit, ?_⟩
    rw [hc]
    exact ⟨hstart, hend, hle⟩
  rw [extractRanges_scan ranges sample_data sample_size validate_zip hsize hzip,
    scanLoop_first_emit sample_data sample_size [] (by omega) i hhi hemit 96
      (sample_size - 96) hlo (by omega)
      (fun k hk1 hk2 hk => hfirst k hk1 hk2 (emitsAt_sig hk)),
    hc, List.nil_append]

/-- C7, amended, at a sample of 8400 bytes with `filename_len = 10` and `uncompressed_size = 100`: the range `[8182, 8281]` replaces the prior output. -/
theorem extract_first_match_emits_witness :
    96 ≤ 8400
    ∧ (true = false ∨ le32 acceptSample 0 = 0x04034B50)
    ∧ 8400 - 96 ≤ 8304 ∧ 8304 ≤ 8400 - 4
    ∧ le32 acceptSample 8304 = 0x02014B50
    ∧ (∀ j, 8400 - 96 ≤ j → j < 8304 → le32 acceptSample j ≠ 0x02014B50)
    ∧ 8304 + 46 ≤ 8400
    ∧ ExtractRanges [⟨0, 0⟩, ⟨3, 4⟩] acceptSample 8400 true = some [⟨8182, 8281⟩] :=
  ⟨by decide, Or.inr (by decide), by decide, by decide, by decide, fun j h1 h2 => by omega,
    by decide,
    extract_first_match_emits [⟨0, 0⟩, ⟨3, 4⟩] acceptSample 8400 true 8304 (by decide)
      (Or.inr (by decide)) (by decide) (by decide) (by decide) (fun j h1 h2 => by omega)
      (by decide) (by decide) (by decide) (by decide)⟩

/-- C8, as stated, fails: the loop leaves only through `break` in the accepting branch,
so a match whose range is rejected does not end the scan. In a sample of 8300 bytes
the first match, at 8204, has a header that fits and the computed range
`[8172, 8171]`, which is rejected; the match at 8250 is then examined and its range
`[8172, 8172]` is emitted. -/
theorem extract_no_retry_counterexample :
    96 ≤ 8300
    ∧ le32 twoMatchSample 0 = 0x04034B50
    ∧ 8300 - 96 ≤ 8204 ∧ 8204 ≤ 8300 - 4
    ∧ le32 twoMatchSample 8204 = 0x02014B50
    ∧ (∀ j, 8300 - 96 ≤ j → j < 8204 → le32 twoMatchSample j ≠ 0x02014B50)
    ∧ 8204 + 46 ≤ 8300
    ∧ candidate twoMatchSample 8204 = ⟨8172, 8171⟩
    ∧ ¬ inBounds 8300 (candidate twoMatchSample 8204)
    ∧ ExtractRanges [] twoMatchSample 8300 true = some [⟨8172, 8172⟩]
    ∧ ExtractRanges [] twoMatchSample 8300 false = some [⟨8172, 8172⟩]
    ∧ ExtractRanges [] twoMatchSample 8300 true ≠ some [] :=
  ⟨by decide, by decide, by decide, by decide, by decide, fun j h1 h2 => by omega, by decide,
    by decide, by decide, by decide, by decide, by decide⟩

/-- C8, amended: `ExtractRanges` acts on the first central-directory signature match
whose header fits and whose computed range passes the bounds check; a match whose range
is rejected is passed over and the scan goes on. For every sample with
`sample_size >= 96` that passes the optional local-header check and whose first match,
at `i`, has a header that fits and a rejected range: the output is empty when no later
offset of the window holds a signature with a fitting header and an accepted range, and
otherwise it is the one range computed at the first such offset. -/
theorem extract_skips_rejected_match (ranges : List Range) (sample_data : Nat → Nat)
    (sample_size : Nat) (validate_zip : Bool) (i : Nat)
    (hsize : 96 ≤ sample_size)
    (hzip : validate_zip = false ∨ le32 sample_data 0 = 0x04034B50)
    (hlo : sample_size - 96 ≤ i) (hhi : i ≤ sample_size - 4)
    (hsig : le32 sample_data i = 0x02014B50)
    (hfirst : ∀ j, sample_size - 96 ≤ j → j < i → le32 sample_data j ≠ 0x02014B50)
    (hfit : i + 46 ≤ sample_size)
    (hrej : ¬ inBounds sample_size (candidate sample_data i)) :
    ((∀ j, i < j → j ≤ sample_size - 4 → ¬ emitsAt sample_data sample_size j) →
        ExtractRanges ranges sample_data sample_size validate_zip = some [])
    ∧ (∀ j, i < j → j ≤ sample_size - 4 → emitsAt sample_data sample_size j →
        (∀ k, i < k → k < j → ¬ emitsAt sample_data sample_size k) →
        ExtractRanges ranges sample_data sample_size validate_zip
          = some [candidate sample_data j]) := by
  have hbefore : ∀ k, sample_size - 96 ≤ k → k ≤ i → ¬ emitsAt sample_data sample_size k := by
    intro k hk1 hk2 hk
    by_cases hki : k = i
    · subst hki; exact hrej hk.2.2
    · exact hfirst k hk1 (by omega) (emitsAt_sig hk)
  rw [extractRanges_scan ranges sample_data sample_size validate_zip hsize hzip]
  constructor
  · intro hlater
    refine scanLoop_no_emit sample_data sample_size [] (by omega) 96 (sample_size - 96)
      (by omega) ?_
    intro j hj1 hj2
    by_cases hji : j ≤ i
    · exact hbefore j hj1 hji
    · exact hlater j (by omega) hj2
  · intro j hij hj hemit hbetween
    rw [scanLoop_first_emit sample_data sample_size [] (by omega) j hj hemit 96
      (sample_size - 96) (by omega) (by omega) ?_, List.nil_append]
    intro k hk1 hk2
    by_cases hki : k ≤ i
    · exact hbefore k hk1 hki
    · exact hbetween k (by omega) hk2

/-- C8, amended, at the sample with a rejected match at 8204 and an accepted one at 8250. -/
theorem extract_skips_rejected_match_witness :
    96 ≤ 8300
    ∧ (true = false ∨ le32 twoMatchSample 0 = 0x04034B50)
    ∧ 8300 - 96 ≤ 8204 ∧ 8204 ≤ 8300 - 4
    ∧ le32 twoMatchSample 8204 = 0x02014B50
    ∧ (∀ j, 8300 - 96 ≤ j → j < 8204 → le32 twoMatchSample j ≠ 0x02014B50)
    ∧ 8204 + 46 ≤ 8300
    ∧ ¬ inBounds 8300 (candidate twoMatchSample 8204)
    ∧ emitsAt twoMatchSample 8300 8250
    ∧ ExtractRanges [⟨7, 9⟩] twoMatchSample 8300 true = some [⟨8172, 8172⟩] :=
  ⟨by decide, Or.inr (by decide), by decide, by decide, by decide, fun j h1 h2 => by omega,
    by decide, by decide, by decide,
    (extract_skips_rejected_match [⟨7, 9⟩] twoMatchSample 8300 true 8204 (by decide)
      (Or.inr (by decide)) (by decide) (by decide) (by decide) (fun j h1 h2 => by omega)
      (by decide) (by decide)).2 8250 (by decide) (by decide) (by decide)
      (fun k h1 h2 => by interval_cases k <;> decide)⟩

/-- C9: for every sample with `sample_size >= 96` whose first signature match in the
scan window is at an offset `i` with `i + 46 > sample_size`, `ExtractRanges` produces
an empty output, whatever bytes follow the match, for either value of `validate_zip`
and any prior content of the output. -/
theorem extract_truncated_match_empty (ranges : List Range) (sample_data : Nat → Nat)
    (sample_size : Nat) (validate_zip : Bool) (i : Nat)
    (hsize : 96 ≤ sample_size)
    (_hlo : sample_size - 96 ≤ i) (_hhi : i ≤ sample_size - 4)
    (_hsig : le32 sample_data i = 0x02014B50)
    (hfirst : ∀ j, sample_size - 96 ≤ j → j < i → le32 sample_data j ≠ 0x02014B50)
    (htrunc : i + 46 > sample_size) :
    ExtractRanges ranges sample_data sample_size validate_zip = some [] := by
  by_cases hzip : validate_zip = false ∨ le32 sample_data 0 = SIG_PK_LOCAL
  · rw [extractRanges_scan ranges sample_data sample_size validate_zip hsize hzip]
    refine scanLoop_no_emit sample_data sample_size [] (by omega) 96 (sample_size - 96)
      (by omega) ?_
    intro j hj1 _ hj
    by_cases hji : j < i
    · exact hfirst j hj1 hji (emitsAt_sig hj)
    · have := hj.2.1
      unfold HEADER_SIZE at this
      omega
  · rw [not_or] at hzip
    have hv : validate_zip = true := by
      cases validate_zip
      · exact absurd rfl hzip.1
      · rfl
    rw [hv]
    exact extractRanges_not_zip ranges sample_data sample_size hsize hzip.2

/-- C9 at a sample whose first match, at 8260 of 8300 bytes, is truncated and is followed by a second signature at 8270. -/
theorem extract_truncated_match_empty_witness :
    96 ≤ 8300
    ∧ 8300 - 96 ≤ 8260 ∧ 8260 ≤ 8300 - 4
    ∧ le32 truncatedSample 8260 = 0x02014B50
    ∧ le32 truncatedSample 8270 = 0x02014B50
    ∧ 8260 + 46 > 8300
    ∧ ExtractRanges [⟨7, 9⟩] truncatedSample 8300 false = some [] :=
  ⟨by decide, by decide, by decide, by decide, by decide, by decide,
    extract_truncated_match_empty [⟨7, 9⟩] truncatedSample 8300 false 8260 (by decide)
      (by decide) (by decide) (by decide)
      (fun j h1 h2 => by
        have h3 : 8204 ≤ j := h1
        interval_cases j <;> decide)
      (by decide)⟩

/-- C10: for every sample, any bytes, any `sample_size`, either value of `validate_zip`
and any prior content of the output, `ExtractRanges` returns without reading outside the
sample, its output holds at most one range, and a range it holds satisfies
`8172 <= from <= to < sample_size`; a sample of 500 bytes, the buffer built by the
test among them, always yields an empty output. -/
theorem extract_at_most_one_range_in_bounds :
    (∀ (ranges : List Range) (sample_data : Nat → Nat) (sample_size : Nat)
        (validate_zip : Bool),
        ∃ out, ExtractRanges ranges sample_data sample_size validate_zip = some out
          ∧ out.length ≤ 1
          ∧ ∀ r ∈ out, 8172 ≤ r.from ∧ r.from ≤ r.to ∧ r.to < sample_size)
    ∧ (∀ (ranges : List Range) (sample_data : Nat → Nat) (validate_zip : Bool),
        ExtractRanges ranges sample_data 500 validate_zip = some [])
    ∧ (∀ ranges : List Range, ExtractRanges ranges testBuffer 500 true = some []) := by
  have hmain : ∀ (ranges : List Range) (sample_data : Nat → Nat) (sample_size : Nat)
      (validate_zip : Bool),
      ∃ out, ExtractRanges ranges sample_data sample_size validate_zip = some out
        ∧ out.length ≤ 1
        ∧ ∀ r ∈ out, 8172 ≤ r.from ∧ r.from ≤ r.to ∧ r.to < sample_size := by
    intro ranges data size v
    by_cases hsize : size < 96
    · exact ⟨[], extractRanges_small ranges data size v hsize, by simp, by simp⟩
    · by_cases hzip : v = false ∨ le32 data 0 = SIG_PK_LOCAL
      · rw [extractRanges_scan ranges data size v (by omega) hzip]
        rcases scanLoop_result data size [] (by omega) 96 (size - 96) (by omega) with
          h | ⟨j, _, _, hemit, h⟩
        · exact ⟨[], h, by simp, by simp⟩
        · refine ⟨[candidate data j], by rw [h, List.nil_append], by simp, ?_⟩
          intro r hr
          rw [List.mem_singleton] at hr
          obtain ⟨_, h2, h3⟩ := hemit.2.2
          rw [hr]
          refine ⟨?_, h3, h2⟩
          simp only [candidate, TARGET_FILE_START]
          omega
      · rw [not_or] at hzip
        have hv : v = true := by
          cases v
          · exact absurd rfl hzip.1
          · rfl
        rw [hv]
        exact ⟨[], extractRanges_not_zip ranges data size (by omega) hzip.2, by simp, by simp⟩
  have h500 : ∀ (ranges : List Range) (sample_data : Nat → Nat) (validate_zip : Bool),
      ExtractRanges ranges sample_data 500 validate_zip = some [] := by
    intro ranges data v
    obtain ⟨out, hout, _, hb⟩ := hmain ranges data 500 v
    cases out with
    | nil => exact hout
    | cons r rest =>
      have := hb r (List.mem_cons_self _ _)
      omega
  exact ⟨hmain, h500, fun ranges => h500 ranges testBuffer true⟩

/-- C11: for every sample and every prior content of the output, if `validate_zip` is
true and the first 4 bytes of the sample are not the little-endian encoding of
`0x04034B50`, `ExtractRanges` leaves the output empty, whatever the scan window
holds. -/
theorem extract_not_zip_empty (ranges : List Range) (sample_data : Nat → Nat)
    (sample_size : Nat) (hsig : le32 sample_data 0 ≠ 0x04034B50) :
    ExtractRanges ranges sample_data sample_size true = some [] := by
  by_cases hsize : sample_size < 96
  · exact extractRanges_small ranges sample_data sample_size true hsize
  · exact extractRanges_not_zip ranges sample_data sample_size (by omega) hsig

/-- C11 at a sample whose scan window holds a fitting header with an accepted range,
which is emitted when `validate_zip` is false. -/
theorem extract_not_zip_empty_witness :
    le32 noLocalSample 0 ≠ 0x04034B50
    ∧ emitsAt noLocalSample 8400 8304
    ∧ ExtractRanges [⟨7, 9⟩] noLocalSample 8400 false = some [⟨8182, 8281⟩]
    ∧ ExtractRanges [⟨7, 9⟩] noLocalSample 8400 true = some [] :=
  ⟨by decide, by decide, by decide,
    extract_not_zip_empty [⟨7, 9⟩] noLocalSample 8400 (by decide)⟩

/-- C12: for every sample with `sample_size < 96`, either value of `validate_zip` and
every prior content of the output, `ExtractRanges` leaves the output empty, also when
the sample holds the central-directory signature. -/
theorem extract_small_sample_empty (ranges : List Range) (sample_data : Nat → Nat)
    (sample_size : Nat) (validate_zip : Bool) (hsize : sample_size < 96) :
    ExtractRanges ranges sample_data sample_size validate_zip = some [] :=
  extractRanges_small ranges sample_data sample_size validate_zip hsize

/-- C12 at a sample of 95 bytes with the central-directory signature at offset 10. -/
theorem extract_small_sample_empty_witness :
    95 < 96 ∧ le32 smallSample 10 = 0x02014B50
    ∧ ExtractRanges [⟨7, 9⟩] smallSample 95 false = some [] :=
  ⟨by decide, by decide, extract_small_sample_empty [⟨7, 9⟩] smallSample 95 false (by decide)⟩

/-- C13: for every sample with `sample_size >= 96` in which no offset `i` with
`sample_size - 96 <= i <= sample_size - 4` holds the little-endian value `0x02014B50`,
`ExtractRanges` leaves the output empty; a signature before the last 96 bytes plays no
part. -/
theorem extract_no_signature_empty (ranges : List Range) (sample_data : Nat → Nat)
    (sample_size : Nat) (validate_zip : Bool) (hsize : 96 ≤ sample_size)
    (hno : ∀ i, sample_size - 96 ≤ i → i ≤ sample_size - 4 →
      le32 sample_data i ≠ 0x02014B50) :
    ExtractRanges ranges sample_data sample_size validate_zip = some [] := by
  by_cases hzip : validate_zip = false ∨ le32 sample_data 0 = SIG_PK_LOCAL
  · rw [extractRanges_scan ranges sample_data sample_size validate_zip hsize hzip]
    exact scanLoop_no_emit sample_data sample_size [] (by omega) 96 (sample_size - 96)
      (by omega) (fun j hj1 hj2 hj => hno j hj1 hj2 (emitsAt_sig hj))
  · rw [not_or] at hzip
    have hv : validate_zip = true := by
      cases validate_zip
      · exact absurd rfl hzip.1
      · rfl
    rw [hv]
    exact extractRanges_not_zip ranges sample_data sample_size hsize hzip.2

/-- C13 at a sample of 8400 bytes whose only signature, at 8200, lies before the scan
window. -/
theorem extract_no_signature_empty_witness :
    96 ≤ 8400 ∧ le32 earlySigSample 8200 = 0x02014B50
    ∧ ExtractRanges [⟨7, 9⟩] earlySigSample 8400 false = some [] :=
  ⟨by decide, by decide,
    extract_no_signature_empty [⟨7, 9⟩] earlySigSample 8400 false (by decide)
      (fun i h1 h2 => by
        have h3 : 8304 ≤ i := h1
        have h4 : i ≤ 8396 := h2
        interval_cases i <;> decide)⟩

/-! ## Lemmas on the shared-memory tracker -/

theorem readPairs_eq (data : Nat → Nat) (size : Nat) : ∀ n buf : Nat, buf + 8 * n ≤ size →
    readPairs data size n buf = some ((List.range n).map
      (fun k => (⟨le32 data (buf + 8 * k), le32 data (buf + 4 + 8 * k)⟩ : Range))) := by
  intro n
  induction n with
  | zero => intro buf _; rfl
  | succ n ih =>
    intro buf hlen
    have h1 : read32 data size buf = some (le32 data buf) := by
      unfold read32; rw [if_pos (by omega)]
    have h2 : read32 data size (buf + 4) = some (le32 data (buf + 4)) := by
      unfold read32; rw [if_pos (by omega)]
    simp only [readPairs, h1, h2, ih (buf + 8) (by omega)]
    rw [List.range_succ_eq_map, List.map_cons, List.map_map]
    congr 2
    apply List.map_congr_left
    intro k _
    have e1 : buf + 8 + 8 * k = buf + 8 * (k + 1) := by omega
    have e2 : buf + 8 + 4 + 8 * k = buf + 4 + 8 * (k + 1) := by omega
    simp only [Function.comp, e1, e2]

theorem readPairs_pairsOf (data : Nat → Nat) (size n : Nat) (hlen : 4 + 8 * n ≤ size) :
    readPairs data size n 4 = some (pairsOf data n) := by
  rw [readPairs_eq data size n 4 hlen]
  rfl

theorem consolidate_append_prior (sort : List Range → List Range)
    (inranges outranges : List Range) :
    ConsolidateRanges sort inranges outranges
      = outranges ++ ConsolidateRanges sort inranges [] := by
  unfold ConsolidateRanges
  split_ifs with h
  · simp
  · cases sort inranges with
    | nil => simp
    | cons f r =>
      simp only [List.nil_append]
      rw [consolidateLoop_eq_sweep r outranges f]
      rw [show ([f] : List Range) = [] ++ [f] from rfl, consolidateLoop_eq_sweep r [] f]
      rfl

/-! ## Claims on the shared-memory and constant trackers -/

/-- C14: the constructor divides by `sizeof(uint32_t)`, so `max_ranges` is
`(size - 4) / 4`, the number of 4-byte words after the count, not the number
`(size - 4) / 8` of 8-byte pairs: for a region of 20 bytes it is 4, while 2 pairs fit. -/
theorem shm_max_ranges_counts_words :
    (∀ size : Nat, SHMRangeTracker.max_ranges size = (size - 4) / 4)
    ∧ SHMRangeTracker.max_ranges 20 = 4
    ∧ SHMRangeTracker.max_ranges 20 ≠ (20 - 4) / 8 :=
  ⟨fun _ => rfl, by decide, by decide⟩

/-- C15: with the constructor's `max_ranges`, a count word above the capacity of the
region is not clamped far enough. For a region of 20 bytes (5 words) and count 4,
`max_ranges` is 4, the highest word index read is 8, and the bounds-checked
`ExtractRanges` reads outside the region. -/
theorem shm_extract_reads_outside_region :
    SHMRangeTracker.max_ranges 20 = 4
    ∧ le32 overfullRegion 0 = 4
    ∧ ¬ (2 * min (le32 overfullRegion 0) (SHMRangeTracker.max_ranges 20) < 20 / 4)
    ∧ readPairs overfullRegion 20 (min (le32 overfullRegion 0) (SHMRangeTracker.max_ranges 20)) 4
        = none
    ∧ SHMRangeTracker.ExtractRanges stableSort overfullRegion 20
        (SHMRangeTracker.max_ranges 20) [] = none :=
  ⟨by decide, by decide, by decide, by decide, by decide⟩

/-- C16: for every buffer with count word `N` and every capacity `max_ranges`, the
buffer being long enough for the pairs read, `SHMRangeTracker::ExtractRanges` called
with an empty output emits nothing and no warning when `N = 0`; otherwise it leaves the
output equal to `ConsolidateRanges` of the first `min(N, max_ranges)` pairs in buffer
order, with exactly one warning if `N > max_ranges` and none otherwise. -/
theorem shm_extract_decodes_and_consolidates (sort : List Range → List Range)
    (data : Nat → Nat) (size max_ranges : Nat)
    (hlen : 4 + 8 * min (le32 data 0) max_ranges ≤ size) :
    (le32 data 0 = 0 →
        SHMRangeTracker.ExtractRanges sort data size max_ranges [] = some ([], []))
    ∧ (le32 data 0 ≠ 0 →
        (pairsOf data (min (le32 data 0) max_ranges)).length = min (le32 data 0) max_ranges
        ∧ SHMRangeTracker.ExtractRanges sort data size max_ranges []
          = some (ConsolidateRanges sort (pairsOf data (min (le32 data 0) max_ranges)) [],
              if le32 data 0 > max_ranges then ["Number of ranges exceeds buffer size."]
              else [])) := by
  have h0 : read32 data size 0 = some (le32 data 0) := by
    unfold read32; rw [if_pos (by omega)]
  constructor
  · intro hN
    simp [SHMRangeTracker.ExtractRanges, h0, hN]
  · intro hN
    refine ⟨by simp [pairsOf], ?_⟩
    have hnum : (if le32 data 0 > max_ranges then max_ranges else le32 data 0)
        = min (le32 data 0) max_ranges := by
      split_ifs with h
      · exact (Nat.min_eq_right (Nat.le_of_lt h)).symm
      · exact (Nat.min_eq_left (Nat.le_of_not_lt h)).symm
    simp only [SHMRangeTracker.ExtractRanges, h0, hN, if_false, hnum,
      readPairs_pairsOf data size _ hlen, RANGES_WARNING]

/-- C16 at a region of 28 bytes with count 3 and capacity 2: the first two pairs are
consolidated and one warning is raised. -/
theorem shm_extract_decodes_and_consolidates_witness :
    4 + 8 * min (le32 shmRegion 0) 2 ≤ 28
    ∧ le32 shmRegion 0 = 3
    ∧ pairsOf shmRegion 2 = [⟨5, 10⟩, ⟨1, 3⟩]
    ∧ SHMRangeTracker.ExtractRanges stableSort shmRegion 28 2 []
        = some ([⟨1, 3⟩, ⟨5, 10⟩], ["Number of ranges exceeds buffer size."]) :=
  ⟨by decide, by decide, by decide,
    ((shm_extract_decodes_and_consolidates stableSort shmRegion 28 2 (by decide)).2
      (by decide)).2⟩

/-- C17, as stated, fails for two of the three variants: `ConstantRangeTracker` and
`SHMRangeTracker` do not clear the output, so what they leave depends on what it held
before. -/
theorem extract_clears_output_counterexample :
    ConstantRangeTracker.ExtractRanges 1 2 [] = [⟨1, 2⟩]
    ∧ ConstantRangeTracker.ExtractRanges 1 2 [⟨7, 9⟩] = [⟨7, 9⟩, ⟨1, 2⟩]
    ∧ SHMRangeTracker.ExtractRanges stableSort emptyRegion 12 1 [] = some ([], [])
    ∧ SHMRangeTracker.ExtractRanges stableSort emptyRegion 12 1 [⟨7, 9⟩]
        = some ([⟨7, 9⟩], [])
    ∧ SHMRangeTracker.ExtractRanges stableSort shmRegion 28 3 [] = some ([⟨1, 3⟩, ⟨5, 15⟩], [])
    ∧ SHMRangeTracker.ExtractRanges stableSort shmRegion 28 3 [⟨7, 9⟩]
        = some ([⟨7, 9⟩, ⟨1, 3⟩, ⟨5, 15⟩], []) :=
  ⟨by decide, by decide, by decide, by decide, by decide, by decide⟩

/-- C17, amended: `ZIPRangeTracker::ExtractRanges` clears the output first, so for
identical inputs it leaves the same output whatever the output held before.
`ConstantRangeTracker` and `SHMRangeTracker` do not clear it: they keep the prior
content and append to it what they produce when the output starts empty. -/
theorem extract_prior_output :
    (∀ (ranges ranges' : List Range) (sample_data : Nat → Nat) (sample_size : Nat)
        (validate_zip : Bool),
        ExtractRanges ranges sample_data sample_size validate_zip
          = ExtractRanges ranges' sample_data sample_size validate_zip)
    ∧ (∀ (tracker_from tracker_to : Nat) (ranges : List Range),
        ConstantRangeTracker.ExtractRanges tracker_from tracker_to ranges
          = ranges ++ ConstantRangeTracker.ExtractRanges tracker_from tracker_to [])
    ∧ (∀ (sort : List Range → List Range) (data : Nat → Nat) (size max_ranges : Nat)
        (ranges : List Range),
        SHMRangeTracker.ExtractRanges sort data size max_ranges ranges
          = (SHMRangeTracker.ExtractRanges sort data size max_ranges []).map
              (fun result => (ranges ++ result.1, result.2))) := by
  refine ⟨?_, ?_, ?_⟩
  · intro ranges ranges' data size v
    simp [ExtractRanges]
  · intro f t ranges
    simp [ConstantRangeTracker.ExtractRanges]
  · intro sort data size max_ranges ranges
    unfold SHMRangeTracker.ExtractRanges
    cases read32 data size 0 with
    | none => rfl
    | some count =>
      simp only
      split_ifs with h0 h1
      · simp
      · cases readPairs data size max_ranges 4 with
        | none => rfl
        | some tmp =>
          simp only [Option.map_some']
          rw [consolidate_append_prior sort tmp ranges]
      · cases readPairs data size count 4 with
        | none => rfl
        | some tmp =>
          simp only [Option.map_some']
          rw [consolidate_append_prior sort tmp ranges]

/-! ## Bounds of the reads and of the emitted range -/

theorem byteAt_lt (data : Nat → Nat) (i : Nat) : byteAt data i < 256 :=
  Nat.mod_lt _ (by decide)

theorem le16_lt (data : Nat → Nat) (i : Nat) : le16 data i < 65536 := by
  have h0 := byteAt_lt data i
  have h1 := byteAt_lt data (i + 1)
  unfold le16
  omega

theorem le32_lt (data : Nat → Nat) (i : Nat) : le32 data i < 4294967296 := by
  have h0 := byteAt_lt data i
  have h1 := byteAt_lt data (i + 1)
  have h2 := byteAt_lt data (i + 2)
  have h3 := byteAt_lt data (i + 3)
  unfold le32
  omega

theorem extractRanges_result (ranges : List Range) (data : Nat → Nat) (size : Nat) (v : Bool) :
    ExtractRanges ranges data size v = some []
      ∨ ∃ j, 96 ≤ size ∧ size - 96 ≤ j ∧ j ≤ size - 4 ∧ emitsAt data size j
          ∧ ExtractRanges ranges data size v = some [candidate data j] := by
  by_cases hsize : size < 96
  · exact Or.inl (extractRanges_small ranges data size v hsize)
  · by_cases hzip : v = false ∨ le32 data 0 = SIG_PK_LOCAL
    · rw [extractRanges_scan ranges data size v (by omega) hzip]
      rcases scanLoop_result data size [] (by omega) 96 (size - 96) (by omega) with
        h | ⟨j, hj1, hj2, hemit, h⟩
      · exact Or.inl h
      · exact Or.inr ⟨j, by omega, hj1, hj2, hemit, by rw [h, List.nil_append]⟩
    · rw [not_or] at hzip
      have hv : v = true := by
        cases v
        · exact absurd rfl hzip.1
        · rfl
      rw [hv]
      exact Or.inl (extractRanges_not_zip ranges data size (by omega) hzip.2)

/-- C18: for every sample and either value of `validate_zip`, the bounds-checked
`ExtractRanges` and `IsZIPFile` never take the out-of-bounds branch, and the loop bound
`sample_size - 4` never wraps: both return a result. The reads they make are in bounds:
the signature read at offset 0 when `sample_size >= 4`, the signature read at every
offset `i` of the scan window, and the reads of the header fields at `i + 24 .. i + 29`
when the header fits. -/
theorem extract_reads_in_bounds :
    (∀ (ranges : List Range) (sample_data : Nat → Nat) (sample_size : Nat)
        (validate_zip : Bool),
        ∃ out, ExtractRanges ranges sample_data sample_size validate_zip = some out)
    ∧ (∀ (data : Nat → Nat) (size : Nat), ∃ b, IsZIPFile data size = some b)
    ∧ (∀ (data : Nat → Nat) (size : Nat), 4 ≤ size →
        read32 data size 0 = some (le32 data 0))
    ∧ (∀ (sample_data : Nat → Nat) (sample_size i : Nat), 96 ≤ sample_size →
        sample_size - 96 ≤ i → i ≤ sample_size - 4 →
        i + 3 < sample_size
        ∧ read32 sample_data sample_size i = some (le32 sample_data i)
        ∧ (i + 46 ≤ sample_size →
            i + 29 < sample_size
            ∧ read16 sample_data sample_size (i + 28) = some (le16 sample_data (i + 28))
            ∧ read32 sample_data sample_size (i + 24) = some (le32 sample_data (i + 24)))) := by
  refine ⟨?_, ?_, ?_, ?_⟩
  · intro ranges data size v
    rcases extractRanges_result ranges data size v with h | ⟨j, _, _, _, _, h⟩
    · exact ⟨[], h⟩
    · exact ⟨[candidate data j], h⟩
  · intro data size
    unfold IsZIPFile
    split_ifs with h
    · exact ⟨false, rfl⟩
    · have hr : read32 data size 0 = some (le32 data 0) := by
        unfold read32; rw [if_pos (by omega)]
      rw [hr]
      exact ⟨_, rfl⟩
  · intro data size h
    unfold read32; rw [if_pos (by omega)]
  · intro data size i hsize hlo hhi
    refine ⟨by omega, by unfold read32; rw [if_pos (by omega)], ?_⟩
    intro hfit
    exact ⟨by omega, by unfold read16; rw [if_pos (by omega)],
      by unfold read32; rw [if_pos (by omega)]⟩

/-- C18 at the sample of 8400 bytes, at the first offset of its scan window, where the
header fits. -/
theorem extract_reads_in_bounds_witness :
    96 ≤ 8400 ∧ 8400 - 96 ≤ 8304 ∧ 8304 ≤ 8400 - 4 ∧ 8304 + 46 ≤ 8400
    ∧ 8304 + 3 < 8400
    ∧ read32 acceptSample 8400 8304 = some (le32 acceptSample 8304)
    ∧ 8304 + 29 < 8400
    ∧ read16 acceptSample 8400 (8304 + 28) = some (le16 acceptSample (8304 + 28))
    ∧ read32 acceptSample 8400 (8304 + 24) = some (le32 acceptSample (8304 + 24)) :=
  ⟨by decide, by decide, by decide, by decide,
    (extract_reads_in_bounds.2.2.2 acceptSample 8400 8304 (by decide) (by decide)
      (by decide)).1,
    (extract_reads_in_bounds.2.2.2 acceptSample 8400 8304 (by decide) (by decide)
      (by decide)).2.1,
    ((extract_reads_in_bounds.2.2.2 acceptSample 8400 8304 (by decide) (by decide)
      (by decide)).2.2 (by decide)).1,
    ((extract_reads_in_bounds.2.2.2 acceptSample 8400 8304 (by decide) (by decide)
      (by decide)).2.2 (by decide)).2.1,
    ((extract_reads_in_bounds.2.2.2 acceptSample 8400 8304 (by decide) (by decide)
      (by decide)).2.2 (by decide)).2.2⟩

/-- C20: whenever `ExtractRanges` emits a range, it comes from an offset `i` of the scan
window that holds the signature with a header that fits, the header has
`uncompressed_size >= 1`, `from = 8172 + filename_len`, and
`to = from + uncompressed_size - 1` holds over the natural numbers: the 32-bit
evaluation of `range_end` did not wrap. -/
theorem extract_emitted_range_exact (ranges : List Range) (sample_data : Nat → Nat)
    (sample_size : Nat) (validate_zip : Bool) (out : List Range) (r : Range)
    (hout : ExtractRanges ranges sample_data sample_size validate_zip = some out)
    (hr : r ∈ out) :
    ∃ i, sample_size - 96 ≤ i ∧ i ≤ sample_size - 4
      ∧ le32 sample_data i = 0x02014B50 ∧ i + 46 ≤ sample_size
      ∧ 1 ≤ le32 sample_data (i + 24)
      ∧ r.from = 8172 + le16 sample_data (i + 28)
      ∧ r.to = r.from + le32 sample_data (i + 24) - 1
      ∧ 8172 + le16 sample_data (i + 28) + le32 sample_data (i + 24) - 1 < 4294967296 := by
  rcases extractRanges_result ranges sample_data sample_size validate_zip with
    h | ⟨j, _, hj1, hj2, hemit, h⟩
  · rw [h] at hout
    have : out = [] := (Option.some.inj hout).symm
    rw [this] at hr
    exact absurd hr (List.not_mem_nil r)
  · rw [h] at hout
    have hout2 : out = [candidate sample_data j] := (Option.some.inj hout).symm
    rw [hout2, List.mem_singleton] at hr
    obtain ⟨hsig, hfit, _, _, hle⟩ := hemit
    have hfl := le16_lt sample_data (j + 28)
    have hus := le32_lt sample_data (j + 24)
    have hfrom : r.from = 8172 + le16 sample_data (j + 28) := by rw [hr]; rfl
    have hto : r.to
        = (8172 + le16 sample_data (j + 28) + le32 sample_data (j + 24) - 1) % 4294967296 := by
      rw [hr]
      show rangeEnd _ _ = _
      rw [rangeEnd_eq]
      rfl
    have hle2 : r.from ≤ r.to := by rw [hr]; exact hle
    refine ⟨j, hj1, hj2, hsig, hfit, ?_, hfrom, ?_, ?_⟩
    · omega
    · omega
    · omega

/-- C20 at the sample of 8400 bytes with `filename_len = 10` and
`uncompressed_size = 100`. -/
theorem extract_emitted_range_exact_witness :
    ExtractRanges [] acceptSample 8400 true = some [⟨8182, 8281⟩]
    ∧ (⟨8182, 8281⟩ : Range) ∈ [(⟨8182, 8281⟩ : Range)]
    ∧ ∃ i, 8400 - 96 ≤ i ∧ i ≤ 8400 - 4
      ∧ le32 acceptSample i = 0x02014B50 ∧ i + 46 ≤ 8400
      ∧ 1 ≤ le32 acceptSample (i + 24)
      ∧ (⟨8182, 8281⟩ : Range).from = 8172 + le16 acceptSample (i + 28)
      ∧ (⟨8182, 8281⟩ : Range).to = (⟨8182, 8281⟩ : Range).from + le32 acceptSample (i + 24) - 1
      ∧ 8172 + le16 acceptSample (i + 28) + le32 acceptSample (i + 24) - 1 < 4294967296 :=
  ⟨by decide, by decide,
    extract_emitted_range_exact [] acceptSample 8400 true [⟨8182, 8281⟩] ⟨8182, 8281⟩
      (by decide) (by decide)⟩

/-! ## Independence of the order of the input -/

theorem sweep_cons (last c : Range) (rest : List Range) :
    sweep last (c :: rest)
      = if c.from ≤ last.to then sweep (extend last c) rest else last :: sweep c rest := by
  simp only [sweep, extend]
  split_ifs <;> rfl

theorem sweep_congr {l l' : List Range} (h : ∀ last, sweep last l = sweep last l')
    (last c : Range) : sweep last (c :: l) = sweep last (c :: l') := by
  rw [sweep_cons, sweep_cons, h, h]

theorem extend_to_ge (last c : Range) : last.to ≤ (extend last c).to := by
  unfold extend
  split_ifs with h
  · exact Nat.le_of_lt h
  · exact Nat.le_refl _

theorem extend_extend_comm (last a b : Range) :
    extend (extend last a) b = extend (extend last b) a := by
  obtain ⟨lf, lt⟩ := last
  obtain ⟨af, at_⟩ := a
  obtain ⟨bf, bt⟩ := b
  simp only [extend]
  by_cases h1 : at_ > lt <;> by_cases h2 : bt > lt <;> by_cases h3 : bt > at_ <;>
    by_cases h4 : at_ > bt <;> simp [h1, h2, h3, h4] <;> omega

theorem extend_comm (a b : Range) (hab : a.from = b.from) : extend a b = extend b a := by
  obtain ⟨af, at_⟩ := a
  obtain ⟨bf, bt⟩ := b
  simp only at hab
  subst hab
  simp only [extend]
  split_ifs with h1 h2 h2
  · omega
  · rfl
  · rfl
  · have : at_ = bt := by omega
    rw [this]

theorem sweep_swap (a b : Range) (hab : a.from = b.from) (ha : a.from ≤ a.to)
    (hb : b.from ≤ b.to) (last : Range) (rest : List Range) :
    sweep last (a :: b :: rest) = sweep last (b :: a :: rest) := by
  rw [sweep_cons last a, sweep_cons last b]
  by_cases h : a.from ≤ last.to
  · have h' : b.from ≤ last.to := by omega
    have h1 : b.from ≤ (extend last a).to := by
      have := extend_to_ge last a
      omega
    have h2 : a.from ≤ (extend last b).to := by
      have := extend_to_ge last b
      omega
    rw [if_pos h, if_pos h', sweep_cons, sweep_cons, if_pos h1, if_pos h2,
      extend_extend_comm]
  · have h' : ¬ b.from ≤ last.to := by omega
    rw [if_neg h, if_neg h', sweep_cons, sweep_cons, if_pos (by omega), if_pos (by omega),
      extend_comm a b hab]

theorem sweep_bubble (a : Range) (ha : a.from ≤ a.to) (post : List Range) :
    ∀ pre : List Range, (∀ x ∈ pre, x.from = a.from ∧ x.from ≤ x.to) →
    ∀ last, sweep last (pre ++ a :: post) = sweep last (a :: (pre ++ post)) := by
  intro pre
  induction pre with
  | nil => intro _ last; rfl
  | cons x pre ih =>
    intro hpre last
    have hx := hpre x (List.mem_cons_self _ _)
    have ih2 := ih (fun y hy => hpre y (List.mem_cons_of_mem _ hy))
    rw [List.cons_append, sweep_congr ih2 last x,
      sweep_swap x a hx.1 hx.2 ha last (pre ++ post)]
    rfl

theorem sweep_perm (s1 : List Range) : ∀ s2 : List Range, s1.Perm s2 →
    s1.Pairwise Range.notAfter → s2.Pairwise Range.notAfter →
    (∀ r ∈ s1, r.from ≤ r.to) → ∀ last, sweep last s1 = sweep last s2 := by
  induction s1 with
  | nil =>
    intro s2 hp _ _ _ last
    rw [hp.symm.eq_nil]
  | cons a s1 ih =>
    intro s2 hp hs1 hs2 hv last
    obtain ⟨pre, post, rfl⟩ := List.append_of_mem (hp.mem_iff.1 (List.mem_cons_self a s1))
    have hp' : s1.Perm (pre ++ post) := List.Perm.cons_inv (hp.trans List.perm_middle)
    rw [List.pairwise_cons] at hs1
    have hs2' := List.pairwise_append.1 hs2
    have hpre : ∀ x ∈ pre, x.from = a.from ∧ x.from ≤ x.to := by
      intro x hx
      have hxs : x ∈ a :: s1 := hp.mem_iff.2 (List.mem_append_left _ hx)
      have h1 : x.from ≤ a.from :=
        (notAfter_iff _ _).1 (hs2'.2.2 x hx a (List.mem_cons_self _ _))
      have h2 : a.from ≤ x.from := by
        rcases List.mem_cons.1 hxs with h | h
        · rw [h]
        · exact (notAfter_iff _ _).1 (hs1.1 x h)
      exact ⟨by omega, hv x hxs⟩
    have hsorted : (pre ++ post).Pairwise Range.notAfter :=
      List.pairwise_append.2 ⟨hs2'.1, (List.pairwise_cons.1 hs2'.2.1).2,
        fun x hx y hy => hs2'.2.2 x hx y (List.mem_cons_of_mem _ hy)⟩
    have ih2 := ih (pre ++ post) hp' hs1.2 hsorted (fun r hr => hv r (List.mem_cons_of_mem _ hr))
    rw [sweep_bubble a (hv a (List.mem_cons_self _ _)) post pre hpre last]
    exact sweep_congr ih2 last a

theorem sweepAll_perm (s1 s2 : List Range) (hp : s1.Perm s2)
    (hs1 : s1.Pairwise Range.notAfter) (hs2 : s2.Pairwise Range.notAfter)
    (hv : ∀ r ∈ s1, r.from ≤ r.to) : sweepAll s1 = sweepAll s2 := by
  cases s1 with
  | nil => rw [hp.symm.eq_nil]
  | cons a s1 =>
    obtain ⟨pre, post, rfl⟩ := List.append_of_mem (hp.mem_iff.1 (List.mem_cons_self a s1))
    have hp' : s1.Perm (pre ++ post) := List.Perm.cons_inv (hp.trans List.perm_middle)
    have ha := hv a (List.mem_cons_self _ _)
    have hs1' := List.pairwise_cons.1 hs1
    have hs2' := List.pairwise_append.1 hs2
    have hsorted : (pre ++ post).Pairwise Range.notAfter :=
      List.pairwise_append.2 ⟨hs2'.1, (List.pairwise_cons.1 hs2'.2.1).2,
        fun x hx y hy => hs2'.2.2 x hx y (List.mem_cons_of_mem _ hy)⟩
    have hperm := sweep_perm s1 (pre ++ post) hp' hs1'.2 hsorted
      (fun r hr => hv r (List.mem_cons_of_mem _ hr))
    cases pre with
    | nil => exact hperm a
    | cons b pre =>
      have hb1 : b ∈ a :: s1 := hp.mem_iff.2 (List.mem_cons_self _ _)
      have hb : b.from ≤ b.to := hv b hb1
      have hba1 : b.from ≤ a.from :=
        (notAfter_iff _ _).1 (hs2'.2.2 b (List.mem_cons_self _ _) a (List.mem_cons_self _ _))
      have hba2 : a.from ≤ b.from := by
        rcases List.mem_cons.1 hb1 with h | h
        · rw [h]
        · exact (notAfter_iff _ _).1 (hs1'.1 b h)
      have hpre : ∀ x ∈ pre, x.from = a.from ∧ x.from ≤ x.to := by
        intro x hx
        have hxs : x ∈ a :: s1 :=
          hp.mem_iff.2 (List.mem_append_left _ (List.mem_cons_of_mem _ hx))
        have h1 : x.from ≤ a.from :=
          (notAfter_iff _ _).1
            (hs2'.2.2 x (List.mem_cons_of_mem _ hx) a (List.mem_cons_self _ _))
        have h2 : a.from ≤ x.from := by
          rcases List.mem_cons.1 hxs with h | h
          · rw [h]
          · exact (notAfter_iff _ _).1 (hs1'.1 x h)
        exact ⟨by omega, hv x hxs⟩
      show sweep a s1 = sweep b (pre ++ a :: post)
      rw [hperm a, sweep_bubble a ha post pre hpre b]
      show sweep a (b :: (pre ++ post)) = sweep b (a :: (pre ++ post))
      rw [sweep_cons, sweep_cons, if_pos (by omega), if_pos (by omega),
        extend_comm a b (by omega)]

/-- C19: for every list in which each range satisfies `from <= to` and every permutation
of it, `ConsolidateRanges` yields the same output for both, also when the two calls sort
ranges with equal `from` in different orders. -/
theorem consolidate_order_independent (sort1 sort2 : List Range → List Range)
    (hsort1 : IsStdSort sort1) (hsort2 : IsStdSort sort2) (l1 l2 : List Range)
    (hperm : l1.Perm l2) (hvalid : ∀ r ∈ l1, r.from ≤ r.to) :
    ConsolidateRanges sort1 l1 [] = ConsolidateRanges sort2 l2 [] := by
  rw [consolidate_eq_sweepAll hsort1, consolidate_eq_sweepAll hsort2]
  have hp : (sort1 l1).Perm (sort2 l2) :=
    ((hsort1 l1).1.trans hperm).trans (hsort2 l2).1.symm
  rw [sweepAll_perm (sort1 l1) (sort2 l2) hp (hsort1 l1).2 (hsort2 l2).2
    (fun r hr => hvalid r ((hsort1 l1).1.mem_iff.1 hr))]

/-- C19 at a list with two ranges of equal `from`, a permutation of it, a stable sort
and a sort that reverses ties. -/
theorem consolidate_order_independent_witness :
    IsStdSort stableSort ∧ IsStdSort reversingSort
    ∧ [(⟨5, 10⟩ : Range), ⟨5, 7⟩, ⟨1, 3⟩, ⟨9, 15⟩].Perm [⟨9, 15⟩, ⟨5, 7⟩, ⟨1, 3⟩, ⟨5, 10⟩]
    ∧ (∀ r ∈ [(⟨5, 10⟩ : Range), ⟨5, 7⟩, ⟨1, 3⟩, ⟨9, 15⟩], r.from ≤ r.to)
    ∧ ConsolidateRanges stableSort [⟨5, 10⟩, ⟨5, 7⟩, ⟨1, 3⟩, ⟨9, 15⟩] []
      = ConsolidateRanges reversingSort [⟨9, 15⟩, ⟨5, 7⟩, ⟨1, 3⟩, ⟨5, 10⟩] [] :=
  ⟨stableSort_isStdSort, reversingSort_isStdSort, by decide, by decide,
    consolidate_order_independent stableSort reversingSort stableSort_isStdSort
      reversingSort_isStdSort [⟨5, 10⟩, ⟨5, 7⟩, ⟨1, 3⟩, ⟨9, 15⟩]
      [⟨9, 15⟩, ⟨5, 7⟩, ⟨1, 3⟩, ⟨5, 10⟩] (by decide) (by decide)⟩

end Jackalope
